import Mathlib

/-!
Shallow embedding of the CoinSorter change-making core
(`src/coin_systems.c`, `src/coin_algorithms.c`) and proofs of the spec
claims about it.

Modelling conventions:
* C `int` amounts are modelled as `Int`; all catalog denomination values
  are small positive integers, so `CoinSpec.value` is modelled as `ℕ`.
* C `double` metadata and DP weights are modelled as exact rationals `ℚ`.
  The literal constants of the source (`M_PI`, `1e-12`, `1e300`, `1e9`,
  `0.25`, `0.5`) are translated to rationals; `mPi` is the exact value of
  the IEEE-754 double `M_PI`.
* caller-supplied output buffers (`int *counts`) are modelled as
  `List Int`; a solver that writes the buffer returns the new contents,
  a solver that fails without writing returns the unchanged input list
  (see the `...WithBuffer` wrappers).
* the DP scratch tables (`best`/`last`, the `Cell` array) are modelled as
  lists built cell by cell exactly as the C loops do; `malloc` failure is
  not modelled (allocation always succeeds in the model).
-/

set_option maxHeartbeats 1000000

namespace CoinSorter

/-- A single coin denomination (C struct `CoinSpec` in `coins.h`). -/
structure CoinSpec where
  value : ℕ
  code : String
  name : String
  mass_g : ℚ
  diameter_mm : ℚ
  composition : String
deriving Repr, DecidableEq

instance : Inhabited CoinSpec := ⟨⟨0, "", "", 0, 0, ""⟩⟩

/-- A currency system (C struct `CoinSystem` in `coins.h`).  The C field
`ncoins` is `coins.length`. -/
structure CoinSystem where
  system_name : String
  coins : List CoinSpec
  smallest_unit : ℕ
  canonical_hint : Bool
deriving Repr, DecidableEq

/-- The denomination values of a system, in catalog order. -/
def CoinSystem.vals (sys : CoinSystem) : List ℕ := sys.coins.map (·.value)

/-- C enum `OptimizeMode` (the `OPT_MODE_COUNT` sentinel is not a mode). -/
inductive OptimizeMode where
  | OPT_COUNT
  | OPT_MASS
  | OPT_DIAMETER
  | OPT_AREA
deriving Repr, DecidableEq

/-- Exact value of the IEEE-754 double constant `M_PI`. -/
def mPi : ℚ := 884279719003555 / 281474976710656

/-- The source's floating tolerance literal `1e-12`. -/
def optEps : ℚ := 1 / 10 ^ 12

/-- The source's "infinite" primary weight literal `1e300`. -/
def bigPrimary : ℚ := 10 ^ 300

/- ---------------- static catalog (`coin_systems.c`) ---------------- -/

def USD_COINS : List CoinSpec :=
  [⟨25, "25c", "quarter", 5.670, 24.26, "8.33% Ni bal Cu (clad)"⟩,
   ⟨10, "10c", "dime", 2.268, 17.91, "8.33% Ni bal Cu (clad)"⟩,
   ⟨5, "5c", "nickel", 5.000, 21.21, "25% Ni bal Cu"⟩,
   ⟨1, "1c", "penny", 2.500, 19.05, "2.5% Cu 97.5% Zn (plated)"⟩]

def EUR_COINS : List CoinSpec :=
  [⟨200, "2e", "2 euro", 8.500, 25.75, "Bi-metal: Ni brass/Cu-Ni"⟩,
   ⟨100, "1e", "1 euro", 7.500, 23.25, "Bi-metal: Cu-Ni/Ni brass"⟩,
   ⟨50, "50c", "50 cent", 7.800, 24.25, "Nordic gold"⟩,
   ⟨20, "20c", "20 cent", 5.740, 22.25, "Nordic gold"⟩,
   ⟨10, "10c", "10 cent", 4.100, 19.75, "Nordic gold"⟩,
   ⟨5, "5c", "5 cent", 3.920, 21.25, "Cu plated steel"⟩,
   ⟨2, "2c", "2 cent", 3.060, 18.75, "Cu plated steel"⟩,
   ⟨1, "1c", "1 cent", 2.300, 16.25, "Cu plated steel"⟩]

def CAD_COINS : List CoinSpec :=
  [⟨200, "2d", "toonie", 6.92, 28.00, "Bi-metal Ni/Al-bronze"⟩,
   ⟨100, "1d", "loonie", 6.27, 26.50, "Multi-ply brass plated steel"⟩,
   ⟨25, "25c", "quarter", 4.40, 23.88, "Multi-ply Ni plated steel"⟩,
   ⟨10, "10c", "dime", 1.75, 18.03, "Multi-ply Ni plated steel"⟩,
   ⟨5, "5c", "nickel", 3.95, 21.20, "Multi-ply Ni plated steel"⟩,
   ⟨1, "1c", "penny", 2.35, 19.05, "Cu plated Zn (discontinued)"⟩]

def AUD_COINS : List CoinSpec :=
  [⟨200, "2d", "two dollar", 6.60, 20.50, "Al bronze"⟩,
   ⟨100, "1d", "one dollar", 9.00, 25.00, "Al bronze"⟩,
   ⟨50, "50c", "fifty cent", 15.55, 31.65, "Cupronickel"⟩,
   ⟨20, "20c", "twenty cent", 11.30, 28.65, "Cupronickel"⟩,
   ⟨10, "10c", "ten cent", 5.65, 23.60, "Cupronickel"⟩,
   ⟨5, "5c", "five cent", 2.83, 19.41, "Cupronickel"⟩]

def NZD_COINS : List CoinSpec :=
  [⟨200, "2d", "two dollar", 10.00, 26.50, "Al bronze"⟩,
   ⟨100, "1d", "one dollar", 8.00, 23.00, "Al bronze"⟩,
   ⟨50, "50c", "fifty cent", 5.00, 24.75, "Ni plated steel"⟩,
   ⟨20, "20c", "twenty cent", 4.00, 21.75, "Ni plated steel"⟩,
   ⟨10, "10c", "ten cent", 3.30, 20.50, "Cu plated steel"⟩]

def CNY_COINS : List CoinSpec :=
  [⟨100, "1y", "1 yuan", 6.10, 25.00, "Ni plated steel"⟩,
   ⟨50, "5j", "5 jiao", 3.80, 20.50, "Brass alloy"⟩,
   ⟨10, "1j", "1 jiao", 1.15, 19.00, "Aluminum"⟩]

def usdSystem : CoinSystem := ⟨"usd", USD_COINS, 1, true⟩
def eurSystem : CoinSystem := ⟨"eur", EUR_COINS, 1, false⟩
def cadSystem : CoinSystem := ⟨"cad", CAD_COINS, 1, false⟩
def audSystem : CoinSystem := ⟨"aud", AUD_COINS, 1, false⟩
def nzdSystem : CoinSystem := ⟨"nzd", NZD_COINS, 1, false⟩
def cnySystem : CoinSystem := ⟨"cny", CNY_COINS, 1, false⟩

/-- The static array `SYSTEMS` of `coin_systems.c`. -/
def SYSTEMS : List CoinSystem :=
  [usdSystem, eurSystem, cadSystem, audSystem, nzdSystem, cnySystem]

/-- C `get_coin_system`: linear lookup by name, `none` for unknown names. -/
def get_coin_system (name : String) : Option CoinSystem :=
  SYSTEMS.find? (fun s => s.system_name = name)

/- ---------------- greedy solver ---------------- -/

/-- The loop body of C `greedy_make_change`: for each denomination in list
order take `amount / value` coins (C truncated division, `Int.div`) and
subtract.  Returns (counts written to the buffer, final remainder). -/
def greedyGo : List CoinSpec → Int → List Int × Int
  | [], amt => ([], amt)
  | c :: rest, amt =>
    let q : Int := Int.tdiv amt (c.value : Int)
    let r := greedyGo rest (amt - q * (c.value : Int))
    (q :: r.1, r.2)

/-- C `greedy_make_change`.  The C function fills `counts` unconditionally
and returns `0` iff the final remainder is `0`; we return the written
buffer together with the final remainder. -/
def greedy_make_change (sys : CoinSystem) (amount : Int) : List Int × Int :=
  greedyGo sys.coins amount

/-- Natural-number version of `greedyGo`, used to reason about runs on
non-negative amounts. -/
def greedyNat : List CoinSpec → ℕ → List ℕ × ℕ
  | [], amt => ([], amt)
  | c :: rest, amt =>
    let q := amt / c.value
    let r := greedyNat rest (amt - q * c.value)
    (q :: r.1, r.2)

/- ---------------- minimum-count DP solver ---------------- -/

/-- One cell of the C `best`/`last` pair of arrays: `best` is the tentative
minimal coin count, `last = none` models the `USHRT_MAX` sentinel. -/
structure DpCell where
  best : ℕ
  last : Option ℕ
deriving Repr, DecidableEq

/-- Generic indexed fold over the coin list, mirroring the C inner loop
`for (i = 0; i < ncoins; ++i)`. -/
def idxFold {δ : Type _} (f : CoinSpec → ℕ → δ → δ) : List CoinSpec → ℕ → δ → δ
  | [], _, acc => acc
  | c :: rest, i, acc => idxFold f rest (i + 1) (f c i acc)

/-- Generic bottom-up table builder: cell `0` is fixed, cell `a+1` is
computed by `row` from the table of cells `0..a`. -/
def buildTable {δ : Type _} (cell0 : δ) (row : List δ → ℕ → δ) : ℕ → List δ
  | 0 => [cell0]
  | n + 1 =>
    let t := buildTable cell0 row n
    t ++ [row t (n + 1)]

/-- The C inner-loop body for the count DP at amount `a`:
`if (v <= a && best[a - v] + 1 < best[a]) { update }`.  The lookup
`t.get? (a - c.value)` is `none` exactly when the C read would touch the
not-yet-final cell `a` itself (`v = 0`, where the C comparison
`best[a] + 1 < best[a]` also never updates). -/
def dpStep (t : List DpCell) (a : ℕ) (c : CoinSpec) (i : ℕ) (acc : DpCell) : DpCell :=
  if c.value ≤ a then
    match t.get? (a - c.value) with
    | some prev => if prev.best + 1 < acc.best then ⟨prev.best + 1, some i⟩ else acc
    | none => acc
  else acc

/-- The C `best`/`last` table of `dp_make_change` for amounts `0..n`,
with every cell initialised to `(maxC, USHRT_MAX)` and `best[0] = 0`. -/
def dpTable (sys : CoinSystem) (maxC : ℕ) : ℕ → List DpCell :=
  buildTable ⟨0, none⟩ (fun t a => idxFold (dpStep t a) sys.coins 0 ⟨maxC, none⟩)

/-- The final value of cell `a` of the count-DP table. -/
def dpCell (sys : CoinSystem) (maxC a : ℕ) : DpCell :=
  (dpTable sys maxC a).getD a ⟨maxC, none⟩

/-- C `counts[idx]++`. -/
def bump (counts : List Int) (i : ℕ) : List Int :=
  counts.set i (counts.getD i 0 + 1)

/-- The backpointer walk of `dp_make_change`:
`for (a = amount; a > 0;) { idx = last[a]; if sentinel break; counts[idx]++; a -= value[idx]; }`.
The walk makes at most `amount` steps (each one subtracts a positive coin
value), so a fuel argument of `amount` is an exact model; the
`none`/out-of-range fallbacks are unreachable on the inputs the solver
produces. -/
def dpWalk (sys : CoinSystem) (t : List DpCell) : ℕ → ℕ → List Int → List Int
  | 0, _, counts => counts
  | fuel + 1, a, counts =>
    if a = 0 then counts
    else
      match (t.getD a ⟨0, none⟩).last with
      | some j =>
        match sys.coins.get? j with
        | some c => dpWalk sys t fuel (a - c.value) (bump counts j)
        | none => counts
      | none => counts

/-- C `dp_make_change`: reject negative amounts, build the table, fail if
`best[amount] >= maxC`, else zero the buffer and reconstruct. -/
def dp_make_change (sys : CoinSystem) (amount : Int) : Option (List Int) :=
  if amount < 0 then none
  else
    let n := amount.toNat
    let maxC := n + 1
    let t := dpTable sys maxC n
    if maxC ≤ (t.getD n ⟨maxC, none⟩).best then none
    else some (dpWalk sys t n n (List.replicate sys.coins.length 0))

/- ---------------- aggregate metrics ---------------- -/

/-- Common accumulation loop of `total_mass` / `total_diameter` /
`total_area`: for each (coin, count) pair whose selector `sel` is
positive, add `wfn coin * count` and set the `have` flag. -/
def aggGo (sel wfn : CoinSpec → ℚ) (l : List (CoinSpec × Int)) (acc : ℚ × Bool) : ℚ × Bool :=
  l.foldl
    (fun acc p => if 0 < sel p.1 then (acc.1 + wfn p.1 * (p.2 : ℚ), true) else acc)
    acc

/-- C `total_mass`: sum `mass_g * counts[i]` over coins with `mass_g > 0`,
or `-1` when no coin has a positive mass. -/
def total_mass (sys : CoinSystem) (counts : List Int) : ℚ :=
  let r := aggGo (·.mass_g) (·.mass_g) (sys.coins.zip counts) (0, false)
  if r.2 then r.1 else -1

/-- C `total_diameter`: sum `diameter_mm * counts[i]` over coins with
`diameter_mm > 0`, or `-1` when no coin has a positive diameter. -/
def total_diameter (sys : CoinSystem) (counts : List Int) : ℚ :=
  let r := aggGo (·.diameter_mm) (·.diameter_mm) (sys.coins.zip counts) (0, false)
  if r.2 then r.1 else -1

/-- C `total_area`: per coin with `diameter_mm > 0`, `r = 0.5 * d` and the
term is `M_PI * r * r * counts[i]`; `-1` when no coin has a positive
diameter. -/
def total_area (sys : CoinSystem) (counts : List Int) : ℚ :=
  let r := aggGo (·.diameter_mm)
    (fun c => mPi * ((1 : ℚ) / 2 * c.diameter_mm) * ((1 : ℚ) / 2 * c.diameter_mm))
    (sys.coins.zip counts) (0, false)
  if r.2 then r.1 else -1

/- ---------------- multi-objective DP solver ---------------- -/

/-- One cell of the C `Cell` array of `dp_make_change_opt`
(`double primary; int coins; int last;`), with the `-1`/`-2`/`-3`
sentinels of the source kept in the `Int`-valued `last` field. -/
structure OptCell where
  primary : ℚ
  coins : ℕ
  last : Int
deriving Repr, DecidableEq

/-- The C cell initialiser `{1e300, 1e9, -1}`. -/
def optInit : OptCell := ⟨bigPrimary, 1000000000, -1⟩

/-- The C base cell `dp[0] = {0, 0, -2}`. -/
def optBase : OptCell := ⟨0, 0, -2⟩

/-- C per-denomination weight: the objective's metadata value (`mass_g`,
`diameter_mm`, or the derived area `M_PI * 0.25 * d * d` when `d > 0`),
with fallback weight `1.0` when the computed value is `<= 0`.  The
catch-all match arm is the C `else /* OPT_AREA */` branch (the function is
only reached for non-count modes). -/
def optWeight (mode : OptimizeMode) (c : CoinSpec) : ℚ :=
  let w : ℚ :=
    match mode with
    | .OPT_MASS => c.mass_g
    | .OPT_DIAMETER => c.diameter_mm
    | _ =>
      if 0 < c.diameter_mm then mPi * (1 / 4) * c.diameter_mm * c.diameter_mm else 0
  if w ≤ 0 then 1 else w

/-- The C inner-loop body of `dp_make_change_opt` at amount `a`: guard
`v <= a && dp[a - v].last != -3`, candidate `(primary + w, coins + 1)` and
the improvement rule with the `1e-12` tolerance.  As in `dpStep`, a `none`
lookup happens exactly for `v = 0`, where the C code reads the cell being
built and never accepts the candidate. -/
def optStep (t : List OptCell) (a : ℕ) (mode : OptimizeMode) (c : CoinSpec) (i : ℕ)
    (acc : OptCell) : OptCell :=
  if c.value ≤ a then
    match t.get? (a - c.value) with
    | some prev =>
      if prev.last = -3 then acc
      else
        let w := optWeight mode c
        let candP := prev.primary + w
        let candC := prev.coins + 1
        if candP < acc.primary - optEps ∨ (|candP - acc.primary| < optEps ∧ candC < acc.coins)
        then ⟨candP, candC, (i : Int)⟩
        else acc
    | none => acc
  else acc

/-- The C post-loop fixup `if (dp[a].last == -1) dp[a].last = -3`. -/
def optFinalize (cell : OptCell) : OptCell :=
  if cell.last = -1 then ⟨cell.primary, cell.coins, -3⟩ else cell

/-- The C `Cell` table of `dp_make_change_opt` for amounts `0..n`. -/
def optTable (sys : CoinSystem) (mode : OptimizeMode) : ℕ → List OptCell :=
  buildTable optBase (fun t a => optFinalize (idxFold (optStep t a mode) sys.coins 0 optInit))

/-- The backpointer walk of `dp_make_change_opt`; as in `dpWalk` the
fuel equal to `amount` is exact, and the fallback arms are unreachable on
the inputs the solver produces. -/
def optWalk (sys : CoinSystem) (t : List OptCell) : ℕ → ℕ → List Int → List Int
  | 0, _, counts => counts
  | fuel + 1, a, counts =>
    if a = 0 then counts
    else
      match (t.getD a optInit).last with
      | Int.ofNat j =>
        match sys.coins.get? j with
        | some c => optWalk sys t fuel (a - c.value) (bump counts j)
        | none => counts
      | Int.negSucc _ => counts

/-- C `dp_make_change_opt`.  `OPT_COUNT` delegates to `dp_make_change`.
For the weighted modes the C code has no negative-amount guard and would
read `dp[amount]` out of bounds; that undefined path is modelled as a
failure and no theorem relies on it. -/
def dp_make_change_opt (sys : CoinSystem) (amount : Int) (mode : OptimizeMode) :
    Option (List Int) :=
  if mode = OptimizeMode.OPT_COUNT then dp_make_change sys amount
  else if amount < 0 then none
  else
    let n := amount.toNat
    let t := optTable sys mode n
    if (t.getD n optInit).last < 0 then none
    else some (optWalk sys t n n (List.replicate sys.coins.length 0))

/- ---------------- canonical audit ---------------- -/

/-- The audit bound of C `audit_canonical`: a negative `search_limit` is
clamped to `0`, and a zero limit becomes `coins[0].value * coins[1].value`
(`coins[0].value` squared for a single-denomination system). -/
def auditLimit (sys : CoinSystem) (search_limit : Int) : ℕ :=
  let sl := if search_limit < 0 then 0 else search_limit
  if sl = 0 then
    let max1 := (sys.coins.headD default).value
    let max2 :=
      if 1 < sys.coins.length then ((sys.coins.get? 1).getD default).value else max1
    max1 * max2
  else sl.toNat

/-- The audit loop of C `audit_canonical` over `amt`, `amt+1`, ...: run
greedy (which always rewrites its whole buffer) and the count DP (which
rewrites its buffer only on success, so `dbuf` carries the stale contents
across iterations exactly as the C code's reused `dcounts` buffer does),
and report the first amount where greedy's coin total exceeds the DP's. -/
def auditGo (sys : CoinSystem) : List Int → ℕ → ℕ → Option ℕ
  | _, _, 0 => none
  | dbuf, amt, fuel + 1 =>
    let g := (greedyGo sys.coins (amt : Int)).1
    let d :=
      match dp_make_change sys (amt : Int) with
      | some c => c
      | none => dbuf
    if d.sum < g.sum then some amt
    else auditGo sys d (amt + 1) fuel

/-- C `audit_canonical`: `none` models the return value `1` (canonical up
to the bound), `some k` models return `0` with `*ex_amount = k`.  `dbuf0`
is the (uninitialised) malloc'd contents of `dcounts`; allocation failure
is not modelled. -/
def audit_canonical (sys : CoinSystem) (search_limit : Int) (dbuf0 : List Int) : Option ℕ :=
  auditGo sys dbuf0 1 (auditLimit sys search_limit)

/- ---------------- buffer-framing wrappers ---------------- -/

/-- Buffer-level view of C `greedy_make_change`: the function writes every
entry of the caller's buffer before deciding success, so the final buffer
never depends on its prior contents `buf`. -/
def greedyWithBuffer (sys : CoinSystem) (amount : Int) (_buf : List Int) : Int × List Int :=
  let r := greedyGo sys.coins amount
  ((if r.2 = 0 then 0 else -1), r.1)

/-- Buffer-level view of C `dp_make_change`: the buffer is written
(memset + reconstruction) only after the success check. -/
def dpWithBuffer (sys : CoinSystem) (amount : Int) (buf : List Int) : Int × List Int :=
  match dp_make_change sys amount with
  | some c => (0, c)
  | none => (-1, buf)

/-- Buffer-level view of C `dp_make_change_opt`. -/
def optWithBuffer (sys : CoinSystem) (amount : Int) (mode : OptimizeMode) (buf : List Int) :
    Int × List Int :=
  match dp_make_change_opt sys amount mode with
  | some c => (0, c)
  | none => (-1, buf)

/- ---------------- specification-side definitions ---------------- -/

/-- Value of a count vector against a coin list:
`Σ counts[i] * value[i]`. -/
def sumValues : List CoinSpec → List Int → Int
  | c :: cs, x :: xs => (c.value : Int) * x + sumValues cs xs
  | _, _ => 0

/-- Natural-number version of `sumValues`. -/
def natSumValues : List CoinSpec → List ℕ → ℕ
  | c :: cs, x :: xs => c.value * x + natSumValues cs xs
  | _, _ => 0

/-- An amount `a` can be assembled from `k` coins drawn (with repetition)
from the value list `vals`. -/
inductive CanMake (vals : List ℕ) : ℕ → ℕ → Prop
  | zero : CanMake vals 0 0
  | step {a k v} : v ∈ vals → CanMake vals a k → CanMake vals (a + v) (k + 1)

/-- An amount is representable in the system. -/
def Reach (vals : List ℕ) (a : ℕ) : Prop := ∃ k, CanMake vals a k

/-- The per-denomination area the spec derives from the linear size:
`π * (diameter / 2) ^ 2`. -/
def specArea (c : CoinSpec) : ℚ := mPi * (c.diameter_mm / 2) ^ 2

/-- The spec's wording of the multi-objective per-denomination weight:
the metadata value under the chosen objective when that value is
positive, and exactly `1.0` otherwise. -/
def specWeight (mode : OptimizeMode) (c : CoinSpec) : ℚ :=
  match mode with
  | .OPT_MASS => if 0 < c.mass_g then c.mass_g else 1
  | .OPT_DIAMETER => if 0 < c.diameter_mm then c.diameter_mm else 1
  | _ => if 0 < specArea c then specArea c else 1

/-- The spec's wording of the improvement rule: a candidate replaces the
incumbent iff its primary weight is lower by more than `1e-12`, or the
primary weights agree within `1e-12` and its coin count is strictly
lower. -/
def SpecBetter (candP : ℚ) (candC : ℕ) (incP : ℚ) (incC : ℕ) : Prop :=
  candP < incP - optEps ∨ (|candP - incP| < optEps ∧ candC < incC)

instance SpecBetter.decidable (candP : ℚ) (candC : ℕ) (incP : ℚ) (incC : ℕ) :
    Decidable (SpecBetter candP candC incP incC) :=
  decidable_of_iff (candP < incP - optEps ∨ (|candP - incP| < optEps ∧ candC < incC)) Iff.rfl

/-- Sum of the defined terms of an aggregate metric: over exactly the
(coin, count) pairs whose selector is positive, sum `wfn coin * count`. -/
def definedSum (sel wfn : CoinSpec → ℚ) (l : List (CoinSpec × Int)) : ℚ :=
  ((l.filter (fun p => decide (0 < sel p.1))).map (fun p => wfn p.1 * (p.2 : ℚ))).sum

/- ---------------- generic table and fold lemmas ---------------- -/

theorem buildTable_length {δ : Type _} (cell0 : δ) (row : List δ → ℕ → δ) (n : ℕ) :
    (buildTable cell0 row n).length = n + 1 := by
  induction n with
  | zero => rfl
  | succ n ih => simp [buildTable, ih]

/-- The final value of cell `a` of a `buildTable` table. -/
def tableCell {δ : Type _} (cell0 : δ) (row : List δ → ℕ → δ) (a : ℕ) : δ :=
  (buildTable cell0 row a).getD a cell0

theorem getD_of_get? {δ : Type _} {l : List δ} {n : ℕ} {d x : δ}
    (h : l.get? n = some x) : l.getD n d = x := by
  rw [List.getD_eq_getElem?_getD, ← List.get?_eq_getElem?, h]
  rfl

theorem lt_length_of_get? {δ : Type _} {l : List δ} {n : ℕ} {x : δ}
    (h : l.get? n = some x) : n < l.length := by
  by_contra hge
  rw [List.get?_eq_none.mpr (by omega)] at h
  cases h

theorem buildTable_get? {δ : Type _} (cell0 : δ) (row : List δ → ℕ → δ) :
    ∀ {m n : ℕ}, m ≤ n →
      (buildTable cell0 row n).get? m = some (tableCell cell0 row m) := by
  intro m n h
  induction n with
  | zero =>
    cases Nat.le_zero.mp h
    rfl
  | succ n ih =>
    rcases Nat.lt_or_ge m (n + 1) with h1 | h2
    · have hm : m ≤ n := Nat.lt_succ_iff.mp h1
      rw [buildTable, List.get?_append (by rw [buildTable_length]; omega)]
      exact ih hm
    · have hm : m = n + 1 := le_antisymm h h2
      subst hm
      rw [buildTable, List.get?_append_right (by rw [buildTable_length])]
      rw [buildTable_length]
      simp [tableCell, buildTable, getD_of_get?,
        List.get?_append_right (le_refl (buildTable cell0 row n).length),
        buildTable_length]

theorem buildTable_getD {δ : Type _} (cell0 d : δ) (row : List δ → ℕ → δ)
    {m n : ℕ} (h : m ≤ n) :
    (buildTable cell0 row n).getD m d = tableCell cell0 row m :=
  getD_of_get? (buildTable_get? cell0 row h)

theorem tableCell_zero {δ : Type _} (cell0 : δ) (row : List δ → ℕ → δ) :
    tableCell cell0 row 0 = cell0 := rfl

theorem tableCell_succ {δ : Type _} (cell0 : δ) (row : List δ → ℕ → δ) (a : ℕ) :
    tableCell cell0 row (a + 1) = row (buildTable cell0 row a) (a + 1) := by
  have hb : buildTable cell0 row (a + 1) =
      buildTable cell0 row a ++ [row (buildTable cell0 row a) (a + 1)] := rfl
  unfold tableCell
  rw [hb]
  apply getD_of_get?
  rw [List.get?_append_right (by rw [buildTable_length])]
  rw [buildTable_length]
  simp

theorem idxFold_preserve {δ : Type _} {f : CoinSpec → ℕ → δ → δ} {P : δ → Prop}
    (hf : ∀ c i acc, P acc → P (f c i acc)) :
    ∀ (l : List CoinSpec) (i : ℕ) (acc : δ), P acc → P (idxFold f l i acc) := by
  intro l
  induction l with
  | nil => exact fun i acc h => h
  | cons c rest ih => exact fun i acc h => ih (i + 1) (f c i acc) (hf c i acc h)

/-- Decomposition of an indexed fold: either no step ever changed the
accumulator, or the result is the value of the last change, exhibited as
`f c j accPrev` for the coin `c` at loop index `j`. -/
theorem idxFold_last_update {δ : Type _} (f : CoinSpec → ℕ → δ → δ) :
    ∀ (l : List CoinSpec) (i : ℕ) (acc : δ),
      idxFold f l i acc = acc ∨
      ∃ j c accPrev, i ≤ j ∧ l.get? (j - i) = some c ∧
        idxFold f l i acc = f c j accPrev ∧ f c j accPrev ≠ accPrev := by
  intro l
  induction l with
  | nil => exact fun i acc => Or.inl rfl
  | cons c rest ih =>
    intro i acc
    by_cases hstep : f c i acc = acc
    · rcases ih (i + 1) (f c i acc) with h1 | ⟨j, c', ap, hij, hget, he, hne⟩
      · left
        rw [idxFold, h1, hstep]
      · right
        refine ⟨j, c', ap, by omega, ?_, he, hne⟩
        have hji : j - i = (j - (i + 1)) + 1 := by omega
        rw [hji]
        exact hget
    · rcases ih (i + 1) (f c i acc) with h1 | ⟨j, c', ap, hij, hget, he, hne⟩
      · right
        refine ⟨i, c, acc, le_refl i, by simp, ?_, hstep⟩
        rw [idxFold, h1]
      · right
        refine ⟨j, c', ap, by omega, ?_, he, hne⟩
        have hji : j - i = (j - (i + 1)) + 1 := by omega
        rw [hji]
        exact hget

/- ---------------- count-DP lemmas ---------------- -/

theorem dpCell_eq_tableCell (sys : CoinSystem) (maxC a : ℕ) :
    dpCell sys maxC a =
      tableCell ⟨0, none⟩ (fun t a => idxFold (dpStep t a) sys.coins 0 ⟨maxC, none⟩) a := by
  unfold dpCell dpTable
  exact getD_of_get? (buildTable_get? _ _ le_rfl)

theorem dpTable_get? (sys : CoinSystem) (maxC : ℕ) {m n : ℕ} (h : m ≤ n) :
    (dpTable sys maxC n).get? m = some (dpCell sys maxC m) := by
  rw [dpCell_eq_tableCell]
  exact buildTable_get? _ _ h

theorem dpTable_getD (sys : CoinSystem) (maxC : ℕ) (d : DpCell) {m n : ℕ} (h : m ≤ n) :
    (dpTable sys maxC n).getD m d = dpCell sys maxC m :=
  getD_of_get? (dpTable_get? sys maxC h)

theorem dpCell_zero (sys : CoinSystem) (maxC : ℕ) : dpCell sys maxC 0 = ⟨0, none⟩ := rfl

theorem dpCell_succ (sys : CoinSystem) (maxC a : ℕ) :
    dpCell sys maxC (a + 1) =
      idxFold (dpStep (dpTable sys maxC a) (a + 1)) sys.coins 0 ⟨maxC, none⟩ := by
  rw [dpCell_eq_tableCell, tableCell_succ]
  rfl

/-- The tentative best value never increases across one inner-loop step. -/
theorem dpStep_best_le (t : List DpCell) (a : ℕ) (c : CoinSpec) (i : ℕ) (x : DpCell) :
    (dpStep t a c i x).best ≤ x.best := by
  unfold dpStep
  split
  · split
    · split
      · next h => exact Nat.le_of_lt h
      · exact Nat.le_refl _
    · exact Nat.le_refl _
  · exact Nat.le_refl _

theorem dpFold_best_le (t : List DpCell) (a : ℕ) (l : List CoinSpec) (i : ℕ) (acc : DpCell) :
    (idxFold (dpStep t a) l i acc).best ≤ acc.best := by
  exact idxFold_preserve (P := fun x : DpCell => x.best ≤ acc.best)
    (fun c i x hx => le_trans (dpStep_best_le t a c i x) hx) l i acc le_rfl

/-- After the inner loop, the cell's best value is at most
`best[a - v] + 1` for every denomination `v` considered in the loop. -/
theorem dpFold_best_le_cand (t : List DpCell) (a : ℕ) :
    ∀ (l : List CoinSpec) (i : ℕ) (acc : DpCell) (c : CoinSpec), c ∈ l →
      c.value ≤ a → ∀ prev, t.get? (a - c.value) = some prev →
      (idxFold (dpStep t a) l i acc).best ≤ prev.best + 1 := by
  intro l
  induction l with
  | nil => intro i acc c hc; cases hc
  | cons c0 rest ih =>
    intro i acc c hc hva prev hprev
    rcases List.mem_cons.mp hc with rfl | hmem
    · have hstep : (dpStep t a c i acc).best ≤ prev.best + 1 := by
        simp only [dpStep, if_pos hva, hprev]
        split
        · next h => exact Nat.le_refl _
        · next h => omega
      exact le_trans (dpFold_best_le t a rest (i + 1) (dpStep t a c i acc)) hstep
    · exact ih (i + 1) (dpStep t a c0 i acc) c hmem hva prev hprev

/-- A step that changed the accumulator took the update branch. -/
theorem dpStep_changed {t : List DpCell} {a : ℕ} {c : CoinSpec} {i : ℕ} {x : DpCell}
    (hne : dpStep t a c i x ≠ x) :
    ∃ prev, c.value ≤ a ∧ t.get? (a - c.value) = some prev ∧
      prev.best + 1 < x.best ∧ dpStep t a c i x = ⟨prev.best + 1, some i⟩ := by
  unfold dpStep at hne ⊢
  split at hne
  · next hva =>
    split at hne
    · next prev hprev =>
      split at hne
      · next hlt => exact ⟨prev, hva, hprev, hlt, by rw [if_pos hlt, if_pos hva]⟩
      · exact absurd rfl hne
    · exact absurd rfl hne
  · exact absurd rfl hne

/- ---------------- CanMake lemmas ---------------- -/

theorem CanMake.le_amount {vals : List ℕ} (h1 : ∀ v ∈ vals, 1 ≤ v) :
    ∀ {a k : ℕ}, CanMake vals a k → k ≤ a := by
  intro a k h
  induction h with
  | zero => exact le_rfl
  | step hv _ ih =>
    have := h1 _ hv
    omega

theorem canMake_addCopies {vals : List ℕ} {a k : ℕ} (h : CanMake vals a k)
    {v : ℕ} (hv : v ∈ vals) : ∀ m, CanMake vals (a + m * v) (k + m) := by
  intro m
  induction m with
  | zero => simpa using h
  | succ m ih =>
    have hstep := CanMake.step hv ih
    have h2 : (a + m * v) + v = a + (m + 1) * v := by ring
    have h3 : (k + m) + 1 = k + (m + 1) := by ring
    rw [h2, h3] at hstep
    exact hstep

theorem canMake_of_natCounts {vals : List ℕ} :
    ∀ (cs : List CoinSpec) (ns : List ℕ), (∀ c ∈ cs, c.value ∈ vals) →
      ns.length = cs.length → CanMake vals (natSumValues cs ns) ns.sum := by
  intro cs
  induction cs with
  | nil =>
    intro ns _ hlen
    have : ns = [] := List.length_eq_zero.mp (by simpa using hlen)
    subst this
    exact CanMake.zero
  | cons c cs ih =>
    intro ns h hlen
    match ns with
    | n :: ns' =>
      have hrec := ih ns' (fun c hc => h c (List.mem_cons_of_mem _ hc)) (by simpa using hlen)
      have hv : c.value ∈ vals := h c (List.mem_cons_self _ _)
      have hcopies := canMake_addCopies hrec hv n
      have e1 : natSumValues (c :: cs) (n :: ns') = natSumValues cs ns' + n * c.value := by
        show c.value * n + natSumValues cs ns' = natSumValues cs ns' + n * c.value
        ring
      have e2 : (n :: ns').sum = ns'.sum + n := by
        simp [Nat.add_comm]
      rw [e1, e2]
      exact hcopies

/-- A unit denomination makes every amount reachable: `m` copies of `1`. -/
theorem canMake_of_unit {vals : List ℕ} (h1 : 1 ∈ vals) (m : ℕ) : CanMake vals m m := by
  have := canMake_addCopies CanMake.zero h1 m
  simpa using this

/- ---------------- DP optimality and soundness ---------------- -/

/-- The DP recurrence as an upper bound: one more coin `c` on top of the
optimum for `a` bounds the cell at `a + value c`. -/
theorem dpBest_add_le (sys : CoinSystem) (maxC : ℕ) {c : CoinSpec} (hc : c ∈ sys.coins)
    (h1 : 1 ≤ c.value) (a : ℕ) :
    (dpCell sys maxC (a + c.value)).best ≤ (dpCell sys maxC a).best + 1 := by
  obtain ⟨b, hb⟩ : ∃ b, a + c.value = b + 1 := ⟨a + c.value - 1, by omega⟩
  rw [hb, dpCell_succ]
  have hget : (dpTable sys maxC b).get? ((b + 1) - c.value) = some (dpCell sys maxC a) := by
    have hi : (b + 1) - c.value = a := by omega
    rw [hi]
    exact dpTable_get? sys maxC (by omega)
  exact dpFold_best_le_cand _ _ sys.coins 0 _ c hc (by omega) _ hget

/-- DP lower bound: the cell value is at most the size of any multiset of
denominations reaching the amount. -/
theorem dpBest_le_canMake (sys : CoinSystem) (maxC : ℕ)
    (h1 : ∀ v ∈ sys.vals, 1 ≤ v) :
    ∀ {a k : ℕ}, CanMake sys.vals a k → (dpCell sys maxC a).best ≤ k := by
  intro a k h
  induction h with
  | zero => exact Nat.le_refl 0
  | @step a' k' v hv hc ih =>
    obtain ⟨c, hcmem, hcv⟩ := List.mem_map.mp hv
    have h1c : 1 ≤ c.value := by
      rw [hcv]
      exact h1 _ hv
    have := dpBest_add_le sys maxC hcmem h1c a'
    rw [hcv] at this
    omega

/-- Structure of a reachable nonzero cell: its backpointer names a real
denomination whose value steps down to a cell exactly one coin cheaper. -/
theorem dpCell_sound (sys : CoinSystem) (maxC : ℕ) :
    ∀ a, 1 ≤ a → (dpCell sys maxC a).best < maxC →
      ∃ j c, sys.coins.get? j = some c ∧ 1 ≤ c.value ∧ c.value ≤ a ∧
        dpCell sys maxC a = ⟨(dpCell sys maxC (a - c.value)).best + 1, some j⟩ := by
  intro a ha hlt
  obtain ⟨b, rfl⟩ : ∃ b, a = b + 1 := ⟨a - 1, by omega⟩
  rw [dpCell_succ] at hlt ⊢
  rcases idxFold_last_update (dpStep (dpTable sys maxC b) (b + 1)) sys.coins 0
      ⟨maxC, none⟩ with hacc | ⟨j, c, ap, _, hget, he, hne⟩
  · rw [hacc] at hlt
    exact absurd hlt (lt_irrefl maxC)
  · rw [he]
    obtain ⟨prev, hva, hprev, _, hres⟩ := dpStep_changed hne
    have h1c : 1 ≤ c.value := by
      by_contra hcv
      have hc0 : c.value = 0 := by omega
      rw [hc0] at hprev
      have hnone : (dpTable sys maxC b).get? (b + 1 - 0) = none := by
        rw [List.get?_eq_none]
        rw [dpTable, buildTable_length]
        omega
      rw [hnone] at hprev
      cases hprev
    have hple : b + 1 - c.value ≤ b := by omega
    have hprev' : prev = dpCell sys maxC (b + 1 - c.value) := by
      have hg := dpTable_get? sys maxC hple
      rw [hg] at hprev
      exact (Option.some_injective _ hprev).symm
    refine ⟨j, c, by simpa using hget, h1c, by omega, ?_⟩
    rw [hres, hprev']

/-- Soundness: a cell value below the cap is realised by an actual
multiset of denominations. -/
theorem dpBest_canMake (sys : CoinSystem) (maxC : ℕ) :
    ∀ a, (dpCell sys maxC a).best < maxC →
      CanMake sys.vals a ((dpCell sys maxC a).best) := by
  intro a
  induction a using Nat.strong_induction_on with
  | _ a ih =>
    intro hlt
    match a with
    | 0 => exact CanMake.zero
    | b + 1 =>
      obtain ⟨j, c, hj, h1c, hva, hcell⟩ := dpCell_sound sys maxC (b + 1) (by omega) hlt
      have hbest : (dpCell sys maxC (b + 1)).best =
          (dpCell sys maxC (b + 1 - c.value)).best + 1 := by rw [hcell]
      have hlt' : (dpCell sys maxC (b + 1 - c.value)).best < maxC := by omega
      have hrec := ih (b + 1 - c.value) (by omega) hlt'
      have hv : c.value ∈ sys.vals :=
        List.mem_map_of_mem _ (List.get?_mem hj)
      have hstep := CanMake.step hv hrec
      rw [hbest]
      have harr : (b + 1 - c.value) + c.value = b + 1 := by omega
      rw [harr] at hstep
      exact hstep

/- ---------------- bump and walk lemmas ---------------- -/

theorem bump_length (counts : List Int) (j : ℕ) : (bump counts j).length = counts.length := by
  simp [bump]

theorem bump_sum : ∀ (counts : List Int) (j : ℕ), j < counts.length →
    (bump counts j).sum = counts.sum + 1 := by
  intro counts
  induction counts with
  | nil =>
    intro j h
    simp at h
  | cons x xs ih =>
    intro j hj
    match j with
    | 0 =>
      show ((x + 1) :: xs).sum = (x :: xs).sum + 1
      simp
      ring
    | j + 1 =>
      have hb : bump (x :: xs) (j + 1) = x :: bump xs j := by
        simp [bump, List.getD]
      rw [hb]
      have hr := ih j (by simpa using hj)
      simp [hr]
      ring

theorem bump_sumValues : ∀ (cs : List CoinSpec) (counts : List Int) (j : ℕ) (c : CoinSpec),
    cs.get? j = some c → j < counts.length →
    sumValues cs (bump counts j) = sumValues cs counts + (c.value : Int) := by
  intro cs
  induction cs with
  | nil =>
    intro counts j c hj
    simp at hj
  | cons c0 cs ih =>
    intro counts j c hj hlen
    match counts, j with
    | x :: xs, 0 =>
      have hc : c0 = c := by simpa using hj
      subst hc
      show (c0.value : Int) * (x + 1) + sumValues cs xs =
        (c0.value : Int) * x + sumValues cs xs + (c0.value : Int)
      ring
    | x :: xs, j + 1 =>
      have hb : bump (x :: xs) (j + 1) = x :: bump xs j := by
        simp [bump, List.getD]
      rw [hb]
      show (c0.value : Int) * x + sumValues cs (bump xs j) =
        (c0.value : Int) * x + sumValues cs xs + (c.value : Int)
      rw [ih xs j c (by simpa using hj) (by simpa using hlen)]
      ring

theorem bump_nonneg {counts : List Int} {j : ℕ} (h : ∀ x ∈ counts, 0 ≤ x) :
    ∀ x ∈ bump counts j, 0 ≤ x := by
  intro x hx
  rcases List.mem_or_eq_of_mem_set hx with hmem | rfl
  · exact h x hmem
  · have hd : 0 ≤ counts.getD j 0 := by
      rcases Nat.lt_or_ge j counts.length with hlt | hge
      · rw [List.getD_eq_getElem _ _ hlt]
        exact h _ (List.getElem_mem hlt)
      · rw [List.getD_eq_default _ _ hge]
    omega

theorem sumValues_replicate (cs : List CoinSpec) :
    ∀ k, sumValues cs (List.replicate k 0) = 0 := by
  induction cs with
  | nil =>
    intro k
    cases k <;> rfl
  | cons c cs ih =>
    intro k
    match k with
    | 0 => rfl
    | k + 1 =>
      show (c.value : Int) * 0 + sumValues cs (List.replicate k 0) = 0
      rw [ih k]
      ring

/-- Main walk invariant: starting from a reachable cell `a`, the
backpointer walk adds exactly `best a` to the coin total and exactly `a`
to the value total, preserving length and non-negativity. -/
theorem dpWalk_spec (sys : CoinSystem) (maxC n : ℕ) :
    ∀ (fuel a : ℕ) (counts : List Int), a ≤ n → a ≤ fuel →
      (dpCell sys maxC a).best < maxC → counts.length = sys.coins.length →
      (∀ x ∈ counts, 0 ≤ x) →
      (dpWalk sys (dpTable sys maxC n) fuel a counts).length = counts.length ∧
      (dpWalk sys (dpTable sys maxC n) fuel a counts).sum =
        counts.sum + ((dpCell sys maxC a).best : Int) ∧
      sumValues sys.coins (dpWalk sys (dpTable sys maxC n) fuel a counts) =
        sumValues sys.coins counts + (a : Int) ∧
      (∀ x ∈ dpWalk sys (dpTable sys maxC n) fuel a counts, 0 ≤ x) := by
  intro fuel
  induction fuel with
  | zero =>
    intro a counts han haf hlt hlen hnn
    have ha0 : a = 0 := by omega
    subst ha0
    exact ⟨rfl, by simp [dpCell_zero, dpWalk], by simp [dpWalk], by simpa [dpWalk] using hnn⟩
  | succ fuel ih =>
    intro a counts han haf hlt hlen hnn
    match a with
    | 0 =>
      exact ⟨rfl, by simp [dpCell_zero, dpWalk], by simp [dpWalk], by simpa [dpWalk] using hnn⟩
    | b + 1 =>
      obtain ⟨j, c, hj, h1c, hva, hcell⟩ := dpCell_sound sys maxC (b + 1) (by omega) hlt
      have hgetD : (dpTable sys maxC n).getD (b + 1) ⟨0, none⟩ = dpCell sys maxC (b + 1) :=
        dpTable_getD sys maxC _ han
      have hlast : (dpCell sys maxC (b + 1)).last = some j := by rw [hcell]
      have hstep : dpWalk sys (dpTable sys maxC n) (fuel + 1) (b + 1) counts =
          dpWalk sys (dpTable sys maxC n) fuel (b + 1 - c.value) (bump counts j) := by
        rw [dpWalk]
        simp only [hgetD, hlast, hj]
        rfl
      have hjlen : j < counts.length := by
        rw [hlen]
        exact lt_length_of_get? hj
      have hbest : (dpCell sys maxC (b + 1)).best =
          (dpCell sys maxC (b + 1 - c.value)).best + 1 := by rw [hcell]
      have hrec := ih (b + 1 - c.value) (bump counts j) (by omega) (by omega)
        (by omega) (by rw [bump_length]; exact hlen) (bump_nonneg hnn)
      rw [hstep]
      refine ⟨by rw [hrec.1, bump_length], ?_, ?_, hrec.2.2.2⟩
      · rw [hrec.2.1, bump_sum counts j hjlen, hbest]
        push_cast
        ring
      · rw [hrec.2.2.1, bump_sumValues sys.coins counts j c hj hjlen]
        have hcast : ((b + 1 - c.value : ℕ) : Int) = ((b + 1 : ℕ) : Int) - (c.value : Int) := by
          omega
        rw [hcast]
        push_cast
        ring

/- ---------------- dp_make_change characterisation ---------------- -/

/-- Success test of `dp_make_change` on a non-negative amount. -/
theorem dp_make_change_isSome_iff (sys : CoinSystem) (amount : Int) (h0 : 0 ≤ amount) :
    (dp_make_change sys amount).isSome ↔
      (dpCell sys (amount.toNat + 1) amount.toNat).best < amount.toNat + 1 := by
  have hnn : ¬ amount < 0 := by omega
  unfold dp_make_change
  simp only [if_neg hnn,
    dpTable_getD sys (amount.toNat + 1) ⟨amount.toNat + 1, none⟩ (le_refl amount.toNat)]
  split
  · next h =>
    constructor
    · intro hfalse
      simp at hfalse
    · intro hlt
      omega
  · next h =>
    constructor
    · intro _
      omega
    · intro _
      simp

/-- Output facts of a successful `dp_make_change` run. -/
theorem dp_make_change_some_spec (sys : CoinSystem) (amount : Int) (d : List Int)
    (hd : dp_make_change sys amount = some d) :
    0 ≤ amount ∧
    (dpCell sys (amount.toNat + 1) amount.toNat).best < amount.toNat + 1 ∧
    d.length = sys.coins.length ∧
    d.sum = ((dpCell sys (amount.toNat + 1) amount.toNat).best : Int) ∧
    sumValues sys.coins d = amount ∧
    (∀ x ∈ d, 0 ≤ x) := by
  unfold dp_make_change at hd
  by_cases h0 : amount < 0
  · simp only [if_pos h0] at hd
    cases hd
  · simp only [if_neg h0,
      dpTable_getD sys (amount.toNat + 1) ⟨amount.toNat + 1, none⟩ (le_refl amount.toNat)] at hd
    by_cases hbig : amount.toNat + 1 ≤ (dpCell sys (amount.toNat + 1) amount.toNat).best
    · rw [if_pos hbig] at hd
      cases hd
    · rw [if_neg hbig] at hd
      have hlt : (dpCell sys (amount.toNat + 1) amount.toNat).best < amount.toNat + 1 := by
        omega
      have hw := dpWalk_spec sys (amount.toNat + 1) amount.toNat amount.toNat amount.toNat
        (List.replicate sys.coins.length 0) le_rfl le_rfl hlt (by simp)
        (by intro x hx; rw [List.eq_of_mem_replicate hx])
      have hd' : d = dpWalk sys (dpTable sys (amount.toNat + 1) amount.toNat)
          amount.toNat amount.toNat (List.replicate sys.coins.length 0) :=
        (Option.some_injective _ hd).symm
      subst hd'
      refine ⟨by omega, hlt, by rw [hw.1]; simp, ?_, ?_, hw.2.2.2⟩
      · rw [hw.2.1]
        simp
      · rw [hw.2.2.1, sumValues_replicate]
        omega

/- ---------------- greedy lemmas ---------------- -/

theorem greedyGo_ofNat : ∀ (coins : List CoinSpec) (m : ℕ),
    greedyGo coins (m : Int) =
      ((greedyNat coins m).1.map (fun x : ℕ => (x : Int)), ((greedyNat coins m).2 : Int)) := by
  intro coins
  induction coins with
  | nil =>
    intro m
    rfl
  | cons c rest ih =>
    intro m
    have hq : Int.tdiv (m : Int) (c.value : Int) = ((m / c.value : ℕ) : Int) := rfl
    have hle : m / c.value * c.value ≤ m := Nat.div_mul_le_self m c.value
    have hrem : (m : Int) - ((m / c.value : ℕ) : Int) * (c.value : Int)
        = ((m - m / c.value * c.value : ℕ) : Int) := by
      push_cast [hle]
      ring
    simp only [greedyGo, greedyNat, hq, hrem, ih, List.map_cons]

theorem greedyNat_conserve : ∀ (coins : List CoinSpec) (m : ℕ),
    natSumValues coins (greedyNat coins m).1 + (greedyNat coins m).2 = m := by
  intro coins
  induction coins with
  | nil =>
    intro m
    simp [greedyNat, natSumValues]
  | cons c rest ih =>
    intro m
    show c.value * (m / c.value) +
      natSumValues rest (greedyNat rest (m - m / c.value * c.value)).1 +
      (greedyNat rest (m - m / c.value * c.value)).2 = m
    have hle := Nat.div_mul_le_self m c.value
    have hih := ih (m - m / c.value * c.value)
    have hcomm : c.value * (m / c.value) = m / c.value * c.value := Nat.mul_comm _ _
    omega

theorem greedyNat_length : ∀ (coins : List CoinSpec) (m : ℕ),
    (greedyNat coins m).1.length = coins.length := by
  intro coins
  induction coins with
  | nil => intro m; rfl
  | cons c rest ih =>
    intro m
    show (greedyNat rest (m - m / c.value * c.value)).1.length + 1 = rest.length + 1
    rw [ih]

theorem greedyNat_zero_rem : ∀ (coins : List CoinSpec), (greedyNat coins 0).2 = 0 := by
  intro coins
  induction coins with
  | nil => rfl
  | cons c rest ih =>
    show (greedyNat rest (0 - 0 / c.value * c.value)).2 = 0
    simpa using ih

/-- A system with a unit denomination drives greedy's remainder to `0` on
every non-negative amount. -/
theorem greedyNat_unit_rem : ∀ (coins : List CoinSpec) (m : ℕ),
    (∃ c ∈ coins, c.value = 1) → (greedyNat coins m).2 = 0 := by
  intro coins
  induction coins with
  | nil =>
    intro m h
    obtain ⟨c, hc, _⟩ := h
    cases hc
  | cons c rest ih =>
    intro m h
    show (greedyNat rest (m - m / c.value * c.value)).2 = 0
    by_cases hc1 : c.value = 1
    · have hz : m - m / c.value * c.value = 0 := by
        rw [hc1]
        simp
      rw [hz]
      exact greedyNat_zero_rem rest
    · obtain ⟨c', hc', hval⟩ := h
      rcases List.mem_cons.mp hc' with rfl | hmem
      · exact absurd hval hc1
      · exact ih _ ⟨c', hmem, hval⟩

/-- All catalog systems have only positive denomination values. -/
theorem catalog_vals_pos : ∀ sys ∈ SYSTEMS, ∀ v ∈ sys.vals, 1 ≤ v := by decide

/-- C2: on every catalog system and amount in `0..500` where both the
greedy solver and the count DP succeed, the DP's total coin count is at
most greedy's (DP optimality).  The `500` bound is the claim's test
range; the proof does not need it. -/
theorem c2_dp_le_greedy (sys : CoinSystem) (hsys : sys ∈ SYSTEMS) (amount : Int)
    (h0 : 0 ≤ amount) (_h500 : amount ≤ 500) (g d : List Int)
    (hg : greedy_make_change sys amount = (g, 0))
    (hd : dp_make_change sys amount = some d) :
    d.sum ≤ g.sum := by
  have hv1 : ∀ v ∈ sys.vals, 1 ≤ v := catalog_vals_pos sys hsys
  obtain ⟨m, rfl⟩ : ∃ m : ℕ, amount = (m : Int) := ⟨amount.toNat, by omega⟩
  have hgo := greedyGo_ofNat sys.coins m
  rw [greedy_make_change, hgo, Prod.mk.injEq] at hg
  obtain ⟨hgbuf, hgrem⟩ := hg
  have hrem0 : (greedyNat sys.coins m).2 = 0 := by
    omega
  have hcons := greedyNat_conserve sys.coins m
  rw [hrem0, Nat.add_zero] at hcons
  have hcm : CanMake sys.vals m (greedyNat sys.coins m).1.sum := by
    have hvec : CanMake sys.vals (natSumValues sys.coins (greedyNat sys.coins m).1)
        (greedyNat sys.coins m).1.sum :=
      canMake_of_natCounts sys.coins (greedyNat sys.coins m).1
        (fun c hc => List.mem_map_of_mem _ hc) (greedyNat_length sys.coins m)
    rw [hcons] at hvec
    exact hvec
  have hbest : (dpCell sys ((m : Int).toNat + 1) (m : Int).toNat).best ≤
      (greedyNat sys.coins m).1.sum := by
    have htn : (m : Int).toNat = m := by omega
    rw [htn]
    exact dpBest_le_canMake sys (m + 1) hv1 hcm
  have hds := dp_make_change_some_spec sys (m : Int) d hd
  rw [hds.2.2.2.1]
  rw [← hgbuf]
  have hgs : ((greedyNat sys.coins m).1.map (fun x : ℕ => (x : Int))).sum =
      ((greedyNat sys.coins m).1.sum : Int) := by
    rw [Nat.cast_list_sum]
  rw [hgs]
  exact_mod_cast hbest

/-- Witness for `c2_dp_le_greedy` at `usd`, amount 12. -/
theorem c2_witness :
    usdSystem ∈ SYSTEMS ∧ (0 : Int) ≤ 12 ∧ (12 : Int) ≤ 500 ∧
    greedy_make_change usdSystem 12 = ([0, 1, 0, 2], 0) ∧
    dp_make_change usdSystem 12 = some [0, 1, 0, 2] ∧
    ([0, 1, 0, 2] : List Int).sum ≤ ([0, 1, 0, 2] : List Int).sum :=
  ⟨by simp [SYSTEMS], by decide, by decide, by decide, by decide,
    c2_dp_le_greedy usdSystem (by simp [SYSTEMS]) 12 (by decide) (by decide)
      [0, 1, 0, 2] [0, 1, 0, 2] (by decide) (by decide)⟩

/- ---------------- audit lemmas ---------------- -/

theorem vals_unit_coin {sys : CoinSystem} (hunit : 1 ∈ sys.vals) :
    ∃ c ∈ sys.coins, c.value = 1 := by
  obtain ⟨c, hc, hval⟩ := List.mem_map.mp hunit
  exact ⟨c, hc, hval⟩

theorem dpBest_lt_unit (sys : CoinSystem) (hv1 : ∀ v ∈ sys.vals, 1 ≤ v)
    (hunit : 1 ∈ sys.vals) (m : ℕ) : (dpCell sys (m + 1) m).best < m + 1 := by
  have := dpBest_le_canMake sys (m + 1) hv1 (canMake_of_unit hunit m)
  omega

/-- On a system with a unit denomination the count DP succeeds on every
non-negative amount, and the output's total is the cell value. -/
theorem dp_succeeds_unit (sys : CoinSystem) (hv1 : ∀ v ∈ sys.vals, 1 ≤ v)
    (hunit : 1 ∈ sys.vals) (m : ℕ) :
    ∃ d, dp_make_change sys (m : Int) = some d ∧
      d.sum = ((dpCell sys (m + 1) m).best : Int) := by
  have htn : ((m : Int)).toNat = m := by omega
  have hsome : (dp_make_change sys (m : Int)).isSome := by
    rw [dp_make_change_isSome_iff sys _ (Int.natCast_nonneg m), htn]
    exact dpBest_lt_unit sys hv1 hunit m
  obtain ⟨d, hd⟩ := Option.isSome_iff_exists.mp hsome
  have hspec := dp_make_change_some_spec sys _ d hd
  rw [htn] at hspec
  exact ⟨d, hd, hspec.2.2.2.1⟩

theorem greedy_sum_int (sys : CoinSystem) (m : ℕ) :
    (greedy_make_change sys (m : Int)).1.sum = ((greedyNat sys.coins m).1.sum : Int) ∧
    (greedy_make_change sys (m : Int)).2 = ((greedyNat sys.coins m).2 : Int) := by
  unfold greedy_make_change
  rw [greedyGo_ofNat]
  exact ⟨(Nat.cast_list_sum _).symm, rfl⟩

/-- Greedy's coin total is never below the DP optimum (on a unit-coin
system, where greedy always succeeds). -/
theorem greedy_total_ge_best (sys : CoinSystem) (hv1 : ∀ v ∈ sys.vals, 1 ≤ v)
    (hunit : 1 ∈ sys.vals) (m : ℕ) :
    (dpCell sys (m + 1) m).best ≤ (greedyNat sys.coins m).1.sum := by
  have hrem := greedyNat_unit_rem sys.coins m (vals_unit_coin hunit)
  have hcons := greedyNat_conserve sys.coins m
  rw [hrem, Nat.add_zero] at hcons
  have hcm := canMake_of_natCounts sys.coins (greedyNat sys.coins m).1
    (fun c hc => List.mem_map_of_mem _ hc) (greedyNat_length sys.coins m)
  rw [hcons] at hcm
  exact dpBest_le_canMake sys (m + 1) hv1 hcm

/-- Behaviour of the audit loop on a unit-coin system: `none` means
greedy's total never exceeded the DP total over the scanned window, and
`some k` means `k` is the first scanned amount where it did. -/
theorem auditGo_spec (sys : CoinSystem) (hv1 : ∀ v ∈ sys.vals, 1 ≤ v)
    (hunit : 1 ∈ sys.vals) :
    ∀ (fuel start : ℕ) (dbuf : List Int),
      (auditGo sys dbuf start fuel = none →
        ∀ j : ℕ, start ≤ j → j < start + fuel →
          (greedyNat sys.coins j).1.sum ≤ (dpCell sys (j + 1) j).best) ∧
      (∀ k, auditGo sys dbuf start fuel = some k →
        start ≤ k ∧ k < start + fuel ∧
        (dpCell sys (k + 1) k).best < (greedyNat sys.coins k).1.sum ∧
        ∀ j : ℕ, start ≤ j → j < k →
          (greedyNat sys.coins j).1.sum ≤ (dpCell sys (j + 1) j).best) := by
  intro fuel
  induction fuel with
  | zero =>
    intro start dbuf
    constructor
    · intro _ j hj1 hj2
      omega
    · intro k hk
      cases hk
  | succ fuel ih =>
    intro start dbuf
    obtain ⟨dstart, hdp, hdsum⟩ := dp_succeeds_unit sys hv1 hunit start
    have hgsum := (greedy_sum_int sys start).1
    have hunf : auditGo sys dbuf start (fuel + 1) =
        if dstart.sum < (greedyGo sys.coins (start : Int)).1.sum then some start
        else auditGo sys dstart (start + 1) fuel := by
      rw [auditGo, hdp]
    by_cases hcmp : dstart.sum < (greedyGo sys.coins (start : Int)).1.sum
    · rw [hunf, if_pos hcmp]
      constructor
      · intro hnone
        cases hnone
      · intro k hk
        have hks : k = start := by
          injection hk with h
          omega
        subst hks
        refine ⟨le_rfl, by omega, ?_, ?_⟩
        · have hg2 : (greedyGo sys.coins (k : Int)).1.sum =
              ((greedyNat sys.coins k).1.sum : Int) := hgsum
          rw [hdsum, hg2] at hcmp
          exact_mod_cast hcmp
        · intro j hj1 hj2
          omega
    · rw [hunf, if_neg hcmp]
      have hstart_le : (greedyNat sys.coins start).1.sum ≤ (dpCell sys (start + 1) start).best := by
        have : (greedy_make_change sys (start : Int)).1.sum =
            (greedyGo sys.coins (start : Int)).1.sum := rfl
        rw [← this, hgsum] at hcmp
        rw [hdsum] at hcmp
        have := not_lt.mp hcmp
        exact_mod_cast this
      constructor
      · intro hnone
        intro j hj1 hj2
        rcases Nat.eq_or_lt_of_le hj1 with rfl | hgt
        · exact hstart_le
        · exact (ih (start + 1) dstart).1 hnone j (by omega) (by omega)
      · intro k hk
        obtain ⟨hk1, hk2, hk3, hk4⟩ := (ih (start + 1) dstart).2 k hk
        refine ⟨by omega, by omega, hk3, ?_⟩
        intro j hj1 hj2
        rcases Nat.eq_or_lt_of_le hj1 with rfl | hgt
        · exact hstart_le
        · exact hk4 j (by omega) hj2

/-- C1: on any well-formed currency system (positive values, a unit
denomination, strictly descending — the spec's data-model invariant),
`audit_canonical` returning Canonical (`none`) means greedy and the count
DP report equal coin totals at every amount `1..bound`; returning
NonCanonical `k` means greedy's total strictly exceeds the DP's at `k`
while the two agree at every amount strictly below `k`; and a zero
`search_limit` makes the effective bound the product of the two largest
denomination values (the square of the only value for single-denomination
systems). -/
theorem c1_audit_canonical (sys : CoinSystem) (bound : Int) (dbuf0 : List Int)
    (hv1 : ∀ v ∈ sys.vals, 1 ≤ v) (hunit : 1 ∈ sys.vals)
    (hsort : sys.vals.Pairwise (· > ·)) :
    (audit_canonical sys bound dbuf0 = none →
      ∀ amt : ℕ, 1 ≤ amt → amt ≤ auditLimit sys bound →
        ∃ d, dp_make_change sys (amt : Int) = some d ∧
          (greedy_make_change sys (amt : Int)).1.sum = d.sum ∧
          (greedy_make_change sys (amt : Int)).2 = 0) ∧
    (∀ k, audit_canonical sys bound dbuf0 = some k →
      1 ≤ k ∧ k ≤ auditLimit sys bound ∧
      (∃ d, dp_make_change sys (k : Int) = some d ∧
        d.sum < (greedy_make_change sys (k : Int)).1.sum) ∧
      ∀ amt : ℕ, 1 ≤ amt → amt < k →
        ∃ d, dp_make_change sys (amt : Int) = some d ∧
          (greedy_make_change sys (amt : Int)).1.sum = d.sum) ∧
    (bound = 0 → ∃ v0 v1, auditLimit sys bound = v0 * v1 ∧ v0 ∈ sys.vals ∧
      (∀ v ∈ sys.vals, v ≤ v0) ∧
      ((sys.vals.tail = [] ∧ v1 = v0) ∨
        (v1 ∈ sys.vals.tail ∧ ∀ v ∈ sys.vals.tail, v ≤ v1))) := by
  have hloop := auditGo_spec sys hv1 hunit (auditLimit sys bound) 1 dbuf0
  have hagree : ∀ amt : ℕ,
      (greedyNat sys.coins amt).1.sum ≤ (dpCell sys (amt + 1) amt).best →
      ∃ d, dp_make_change sys (amt : Int) = some d ∧
        (greedy_make_change sys (amt : Int)).1.sum = d.sum ∧
        (greedy_make_change sys (amt : Int)).2 = 0 := by
    intro amt hle
    obtain ⟨d, hd, hdsum⟩ := dp_succeeds_unit sys hv1 hunit amt
    refine ⟨d, hd, ?_, ?_⟩
    · have hge := greedy_total_ge_best sys hv1 hunit amt
      have heq : (greedyNat sys.coins amt).1.sum = (dpCell sys (amt + 1) amt).best := by
        omega
      rw [(greedy_sum_int sys amt).1, hdsum, heq]
    · rw [(greedy_sum_int sys amt).2, greedyNat_unit_rem sys.coins amt (vals_unit_coin hunit)]
      rfl
  refine ⟨?_, ?_, ?_⟩
  · intro hnone amt h1 h2
    exact hagree amt (hloop.1 hnone amt h1 (by omega))
  · intro k hk
    obtain ⟨hk1, hk2, hk3, hk4⟩ := hloop.2 k hk
    refine ⟨hk1, by omega, ?_, ?_⟩
    · obtain ⟨d, hd, hdsum⟩ := dp_succeeds_unit sys hv1 hunit k
      refine ⟨d, hd, ?_⟩
      rw [(greedy_sum_int sys k).1, hdsum]
      exact_mod_cast hk3
    · intro amt h1 h2
      obtain ⟨d, hd, heq, _⟩ := hagree amt (hk4 amt h1 h2)
      exact ⟨d, hd, heq⟩
  · intro hb0
    subst hb0
    match hcoins : sys.coins with
    | [] =>
      rw [CoinSystem.vals, hcoins] at hunit
      cases hunit
    | [c0] =>
      refine ⟨c0.value, c0.value, ?_, ?_, ?_, ?_⟩
      · simp [auditLimit, hcoins]
      · rw [CoinSystem.vals, hcoins]
        simp
      · rw [CoinSystem.vals, hcoins]
        simp
      · left
        rw [CoinSystem.vals, hcoins]
        exact ⟨rfl, rfl⟩
    | c0 :: c1 :: rest =>
      have hvals : sys.vals = c0.value :: c1.value :: rest.map (·.value) := by
        rw [CoinSystem.vals, hcoins]
        simp
      rw [hvals] at hsort
      have hp := List.pairwise_cons.mp hsort
      have hp1 := List.pairwise_cons.mp hp.2
      have hlen2 : 1 < (c0 :: c1 :: rest).length := by
        simp
      refine ⟨c0.value, c1.value, ?_, ?_, ?_, Or.inr ⟨?_, ?_⟩⟩
      · simp [auditLimit, hcoins, hlen2]
      · rw [hvals]
        exact List.mem_cons_self _ _
      · rw [hvals]
        intro v hv
        rcases List.mem_cons.mp hv with rfl | hv'
        · exact le_rfl
        · exact le_of_lt (hp.1 v hv')
      · rw [hvals]
        simp only [List.tail_cons]
        exact List.mem_cons_self _ _
      · rw [hvals]
        simp only [List.tail_cons]
        intro v hv
        rcases List.mem_cons.mp hv with rfl | hv'
        · exact le_rfl
        · exact le_of_lt (hp1.1 v hv')

/-- Witness for `c1_audit_canonical` at `usd`, bound 6, empty scratch
buffer. -/
theorem c1_witness :
    (audit_canonical usdSystem 6 [] = none →
      ∀ amt : ℕ, 1 ≤ amt → amt ≤ auditLimit usdSystem 6 →
        ∃ d, dp_make_change usdSystem (amt : Int) = some d ∧
          (greedy_make_change usdSystem (amt : Int)).1.sum = d.sum ∧
          (greedy_make_change usdSystem (amt : Int)).2 = 0) ∧
    (∀ k, audit_canonical usdSystem 6 [] = some k →
      1 ≤ k ∧ k ≤ auditLimit usdSystem 6 ∧
      (∃ d, dp_make_change usdSystem (k : Int) = some d ∧
        d.sum < (greedy_make_change usdSystem (k : Int)).1.sum) ∧
      ∀ amt : ℕ, 1 ≤ amt → amt < k →
        ∃ d, dp_make_change usdSystem (amt : Int) = some d ∧
          (greedy_make_change usdSystem (amt : Int)).1.sum = d.sum) ∧
    ((6 : Int) = 0 → ∃ v0 v1, auditLimit usdSystem 6 = v0 * v1 ∧ v0 ∈ usdSystem.vals ∧
      (∀ v ∈ usdSystem.vals, v ≤ v0) ∧
      ((usdSystem.vals.tail = [] ∧ v1 = v0) ∨
        (v1 ∈ usdSystem.vals.tail ∧ ∀ v ∈ usdSystem.vals.tail, v ≤ v1))) :=
  c1_audit_canonical usdSystem 6 [] (by decide) (by decide) (by decide)

/- ---------------- multi-objective DP lemmas ---------------- -/

/-- The final value of cell `a` of the weighted-DP table. -/
def optCell (sys : CoinSystem) (mode : OptimizeMode) (a : ℕ) : OptCell :=
  (optTable sys mode a).getD a optInit

theorem optCell_eq_tableCell (sys : CoinSystem) (mode : OptimizeMode) (a : ℕ) :
    optCell sys mode a =
      tableCell optBase
        (fun t a => optFinalize (idxFold (optStep t a mode) sys.coins 0 optInit)) a := by
  unfold optCell optTable
  exact getD_of_get? (buildTable_get? _ _ le_rfl)

theorem optTable_get? (sys : CoinSystem) (mode : OptimizeMode) {m n : ℕ} (h : m ≤ n) :
    (optTable sys mode n).get? m = some (optCell sys mode m) := by
  rw [optCell_eq_tableCell]
  exact buildTable_get? _ _ h

theorem optTable_getD (sys : CoinSystem) (mode : OptimizeMode) (d : OptCell) {m n : ℕ}
    (h : m ≤ n) : (optTable sys mode n).getD m d = optCell sys mode m :=
  getD_of_get? (optTable_get? sys mode h)

theorem optCell_zero (sys : CoinSystem) (mode : OptimizeMode) :
    optCell sys mode 0 = optBase := rfl

theorem optCell_succ (sys : CoinSystem) (mode : OptimizeMode) (a : ℕ) :
    optCell sys mode (a + 1) =
      optFinalize (idxFold (optStep (optTable sys mode a) (a + 1) mode) sys.coins 0 optInit) := by
  rw [optCell_eq_tableCell, tableCell_succ]
  rfl

theorem fallback_weight_pos (w : ℚ) : 0 < if w ≤ 0 then 1 else w := by
  split
  · norm_num
  · next h => exact lt_of_not_le h

theorem optWeight_pos (mode : OptimizeMode) (c : CoinSpec) : 0 < optWeight mode c := by
  unfold optWeight
  exact fallback_weight_pos _

/-- A changed inner-loop step took the accept branch, and its acceptance
condition is exactly the spec's improvement rule. -/
theorem optStep_changed {t : List OptCell} {a : ℕ} {mode : OptimizeMode} {c : CoinSpec}
    {i : ℕ} {acc : OptCell} (hne : optStep t a mode c i acc ≠ acc) :
    ∃ prev, c.value ≤ a ∧ t.get? (a - c.value) = some prev ∧ prev.last ≠ -3 ∧
      optStep t a mode c i acc =
        ⟨prev.primary + optWeight mode c, prev.coins + 1, (i : Int)⟩ ∧
      SpecBetter (prev.primary + optWeight mode c) (prev.coins + 1) acc.primary acc.coins := by
  by_cases hva : c.value ≤ a
  case neg => exact absurd (by simp only [optStep, if_neg hva]) hne
  cases hget : t.get? (a - c.value) with
  | none => exact absurd (by simp only [optStep, if_pos hva, hget]) hne
  | some prev =>
    by_cases hpl : prev.last = -3
    · exact absurd (by simp only [optStep, if_pos hva, hget, if_pos hpl]) hne
    · by_cases hbet : SpecBetter (prev.primary + optWeight mode c) (prev.coins + 1)
        acc.primary acc.coins
      · refine ⟨prev, hva, rfl, hpl, ?_, hbet⟩
        simp only [optStep, if_pos hva, hget, if_neg hpl]
        exact if_pos hbet
      · refine absurd ?_ hne
        simp only [optStep, if_pos hva, hget, if_neg hpl]
        exact if_neg hbet

theorem optStep_last_nonneg {t : List OptCell} {a : ℕ} {mode : OptimizeMode}
    {c : CoinSpec} {i : ℕ} {acc : OptCell} (h : 0 ≤ acc.last) :
    0 ≤ (optStep t a mode c i acc).last := by
  by_cases hne : optStep t a mode c i acc = acc
  · rw [hne]
    exact h
  · obtain ⟨prev, _, _, _, hres, _⟩ := optStep_changed hne
    rw [hres]
    exact Int.natCast_nonneg i

theorem optStep_init_or_nonneg {t : List OptCell} {a : ℕ} {mode : OptimizeMode}
    {c : CoinSpec} {i : ℕ} {acc : OptCell} (h : acc = optInit ∨ 0 ≤ acc.last) :
    optStep t a mode c i acc = optInit ∨ 0 ≤ (optStep t a mode c i acc).last := by
  rcases h with rfl | hnn
  · by_cases hne : optStep t a mode c i optInit = optInit
    · exact Or.inl hne
    · obtain ⟨prev, _, _, _, hres, _⟩ := optStep_changed hne
      right
      rw [hres]
      exact Int.natCast_nonneg i
  · exact Or.inr (optStep_last_nonneg hnn)

theorem optFold_init_or_nonneg (t : List OptCell) (a : ℕ) (mode : OptimizeMode)
    (l : List CoinSpec) (i : ℕ) :
    idxFold (optStep t a mode) l i optInit = optInit ∨
      0 ≤ (idxFold (optStep t a mode) l i optInit).last :=
  idxFold_preserve (P := fun x : OptCell => x = optInit ∨ 0 ≤ x.last)
    (fun c i acc h => optStep_init_or_nonneg h) l i optInit (Or.inl rfl)

/-- Taxonomy of finalized nonzero cells: unreached (`-3`) or reached via a
denomination index (`≥ 0`). -/
theorem optCell_last_cases (sys : CoinSystem) (mode : OptimizeMode) (a : ℕ) :
    (optCell sys mode (a + 1)).last = -3 ∨ 0 ≤ (optCell sys mode (a + 1)).last := by
  rw [optCell_succ]
  rcases optFold_init_or_nonneg (optTable sys mode a) (a + 1) mode sys.coins 0 with h | h
  · left
    rw [h]
    rfl
  · right
    unfold optFinalize
    split
    · next heq =>
      rw [heq] at h
      exact absurd h (by decide)
    · exact h

/-- Finalization never touches a cell whose `last` is a real index. -/
theorem optFinalize_of_nonneg {cell : OptCell} (h : 0 ≤ cell.last) :
    optFinalize cell = cell := by
  unfold optFinalize
  split
  · next heq =>
    rw [heq] at h
    exact absurd h (by decide)
  · rfl

/-- Structure of a reached nonzero cell: the backpointer names a real
denomination stepping down to a non-`-3` cell, and the cell's contents are
the accepted candidate built from that cell. -/
theorem optCell_sound (sys : CoinSystem) (mode : OptimizeMode) (a : ℕ)
    (hnn : 0 ≤ (optCell sys mode (a + 1)).last) :
    ∃ j c, sys.coins.get? j = some c ∧ 1 ≤ c.value ∧ c.value ≤ a + 1 ∧
      ((a + 1) - c.value = 0 ∨ 0 ≤ (optCell sys mode ((a + 1) - c.value)).last) ∧
      optCell sys mode (a + 1) =
        ⟨(optCell sys mode ((a + 1) - c.value)).primary + optWeight mode c,
          (optCell sys mode ((a + 1) - c.value)).coins + 1, (j : Int)⟩ := by
  have hsucc := optCell_succ sys mode a
  rcases idxFold_last_update (optStep (optTable sys mode a) (a + 1) mode) sys.coins 0
      optInit with hacc | ⟨j, c, ap, _, hget, he, hne⟩
  · rw [hsucc, hacc] at hnn
    exact absurd hnn (by decide)
  · obtain ⟨prev, hva, hprev, hpl, hres, _⟩ := optStep_changed hne
    have hfold : idxFold (optStep (optTable sys mode a) (a + 1) mode) sys.coins 0 optInit =
        ⟨prev.primary + optWeight mode c, prev.coins + 1, (j : Int)⟩ := by
      rw [he, hres]
    have hcell : optCell sys mode (a + 1) =
        ⟨prev.primary + optWeight mode c, prev.coins + 1, (j : Int)⟩ := by
      rw [hsucc, hfold, optFinalize_of_nonneg]
      exact Int.natCast_nonneg j
    have h1c : 1 ≤ c.value := by
      by_contra hcv
      have hc0 : c.value = 0 := by omega
      rw [hc0] at hprev
      have hnone : (optTable sys mode a).get? (a + 1 - 0) = none := by
        rw [List.get?_eq_none]
        rw [optTable, buildTable_length]
        omega
      rw [hnone] at hprev
      cases hprev
    have hple : a + 1 - c.value ≤ a := by omega
    have hprev' : prev = optCell sys mode (a + 1 - c.value) := by
      have hg := optTable_get? sys mode hple
      rw [hg] at hprev
      exact (Option.some_injective _ hprev).symm
    subst hprev'
    refine ⟨j, c, by simpa using hget, h1c, by omega, ?_, hcell⟩
    match hav : a + 1 - c.value with
    | 0 => exact Or.inl rfl
    | b + 1 =>
      rw [hav] at hpl
      rcases optCell_last_cases sys mode b with h3 | h3
      · exact absurd h3 hpl
      · exact Or.inr h3

theorem optFold_last_nonneg_preserve (t : List OptCell) (a : ℕ) (mode : OptimizeMode)
    (l : List CoinSpec) (i : ℕ) (acc : OptCell) (h : 0 ≤ acc.last) :
    0 ≤ (idxFold (optStep t a mode) l i acc).last :=
  idxFold_preserve (P := fun x : OptCell => 0 ≤ x.last)
    (fun _ _ _ hx => optStep_last_nonneg hx) l i acc h

/-- If some denomination in the remaining list has a viable, affordable
predecessor cell, the inner loop leaves the cell reached. -/
theorem optFold_reaches (t : List OptCell) (a : ℕ) (mode : OptimizeMode) :
    ∀ (l : List CoinSpec) (i : ℕ),
      (∃ c ∈ l, c.value ≤ a ∧ ∃ prev, t.get? (a - c.value) = some prev ∧
        prev.last ≠ -3 ∧ prev.primary + optWeight mode c < bigPrimary - optEps) →
      0 ≤ (idxFold (optStep t a mode) l i optInit).last := by
  intro l
  induction l with
  | nil =>
    intro i h
    obtain ⟨c, hc, _⟩ := h
    cases hc
  | cons c0 rest ih =>
    intro i h
    obtain ⟨c, hc, hva, prev, hget, hpl, hsmall⟩ := h
    rcases List.mem_cons.mp hc with rfl | hmem
    · have hbet : SpecBetter (prev.primary + optWeight mode c) (prev.coins + 1)
          optInit.primary optInit.coins := Or.inl hsmall
      have heq : optStep t a mode c i optInit =
          ⟨prev.primary + optWeight mode c, prev.coins + 1, (i : Int)⟩ := by
        simp only [optStep, if_pos hva, hget, if_neg hpl]
        exact if_pos hbet
      show 0 ≤ (idxFold (optStep t a mode) rest (i + 1) (optStep t a mode c i optInit)).last
      apply optFold_last_nonneg_preserve
      rw [heq]
      exact Int.natCast_nonneg i
    · show 0 ≤ (idxFold (optStep t a mode) rest (i + 1) (optStep t a mode c0 i optInit)).last
      rcases @optStep_init_or_nonneg t a mode c0 i optInit (Or.inl rfl) with heq | hnn
      · rw [heq]
        exact ih (i + 1) ⟨c, hmem, hva, prev, hget, hpl, hsmall⟩
      · exact optFold_last_nonneg_preserve t a mode rest (i + 1) _ hnn

/-- Reached cells accumulate at most `a * W` primary weight when every
per-denomination weight is at most `W`. -/
theorem optCell_primary_bound (sys : CoinSystem) (mode : OptimizeMode) (W : ℚ)
    (hW : ∀ c ∈ sys.coins, optWeight mode c ≤ W) (hW0 : 0 ≤ W) :
    ∀ a, (a = 0 ∨ 0 ≤ (optCell sys mode a).last) →
      (optCell sys mode a).primary ≤ (a : ℚ) * W := by
  intro a
  induction a using Nat.strong_induction_on with
  | _ a ih =>
    intro hr
    match a with
    | 0 =>
      simp [optCell_zero, optBase]
    | b + 1 =>
      have hnn : 0 ≤ (optCell sys mode (b + 1)).last := by
        rcases hr with h0 | hnn
        · exact absurd h0 (by omega)
        · exact hnn
      obtain ⟨j, c, hj, h1c, hva, hprevr, hcell⟩ := optCell_sound sys mode b hnn
      have hcmem : c ∈ sys.coins := List.get?_mem hj
      have hwc := hW c hcmem
      have hprevb : (optCell sys mode ((b + 1) - c.value)).primary ≤
          (((b + 1) - c.value : ℕ) : ℚ) * W := by
        rcases hprevr with hz | hr2
        · rw [hz]
          simp [optCell_zero, optBase]
        · exact ih _ (by omega) (Or.inr hr2)
      have hprim : (optCell sys mode (b + 1)).primary =
          (optCell sys mode ((b + 1) - c.value)).primary + optWeight mode c := by
        rw [hcell]
      rw [hprim]
      have hcast : (((b + 1) - c.value : ℕ) : ℚ) + 1 ≤ ((b + 1 : ℕ) : ℚ) := by
        have hnat : ((b + 1) - c.value) + 1 ≤ b + 1 := by omega
        exact_mod_cast hnat
      calc (optCell sys mode ((b + 1) - c.value)).primary + optWeight mode c
          ≤ (((b + 1) - c.value : ℕ) : ℚ) * W + W := add_le_add hprevb hwc
        _ = ((((b + 1) - c.value : ℕ) : ℚ) + 1) * W := by ring
        _ ≤ ((b + 1 : ℕ) : ℚ) * W := mul_le_mul_of_nonneg_right hcast hW0

theorem reach_zero {vals : List ℕ} : Reach vals 0 := ⟨0, CanMake.zero⟩

theorem reach_step {vals : List ℕ} {a v : ℕ} (hv : v ∈ vals) (hva : v ≤ a)
    (h : Reach vals (a - v)) : Reach vals a := by
  obtain ⟨k, hk⟩ := h
  refine ⟨k + 1, ?_⟩
  have hstep := CanMake.step hv hk
  rwa [Nat.sub_add_cancel hva] at hstep

theorem canMake_inv {vals : List ℕ} {a k : ℕ} (h : CanMake vals a k) (ha : 1 ≤ a) :
    ∃ v ∈ vals, v ≤ a ∧ Reach vals (a - v) := by
  cases h with
  | zero => omega
  | @step a' k' v hv hc =>
    exact ⟨v, hv, by omega, ⟨k', by simpa using hc⟩⟩

/-- The weighted DP reaches a nonzero amount iff it is representable,
provided the largest total weight in range stays clear of the `1e300`
sentinel (true for any C `int` amount and physical metadata). -/
theorem optCell_reach_iff (sys : CoinSystem) (mode : OptimizeMode)
    (hv1 : ∀ v ∈ sys.vals, 1 ≤ v) (W : ℚ)
    (hW : ∀ c ∈ sys.coins, optWeight mode c ≤ W) (hW0 : 0 ≤ W)
    (N : ℕ) (hbig : (N : ℚ) * W < bigPrimary - 1) :
    ∀ a, 1 ≤ a → a ≤ N → (0 ≤ (optCell sys mode a).last ↔ Reach sys.vals a) := by
  intro a
  induction a using Nat.strong_induction_on with
  | _ a ih =>
    intro ha haN
    match a, ha with
    | b + 1, _ =>
      constructor
      · intro hnn
        obtain ⟨j, c, hj, h1c, hva, hprevr, _⟩ := optCell_sound sys mode b hnn
        have hvmem : c.value ∈ sys.vals := List.mem_map_of_mem _ (List.get?_mem hj)
        apply reach_step hvmem hva
        rcases hprevr with hz | hr2
        · rw [hz]
          exact reach_zero
        · have hpos : 1 ≤ (b + 1) - c.value := by
            by_contra hc0
            have hz0 : (b + 1) - c.value = 0 := by omega
            rw [hz0, optCell_zero] at hr2
            exact absurd hr2 (by decide)
          exact (ih _ (by omega) hpos (by omega)).mp hr2
      · intro hreach
        obtain ⟨k, hk⟩ := hreach
        obtain ⟨v, hv, hva, hreach'⟩ := canMake_inv hk (by omega)
        obtain ⟨c, hcmem, hcv⟩ := List.mem_map.mp hv
        have hva' : c.value ≤ b + 1 := by rw [hcv]; exact hva
        have h1c : 1 ≤ c.value := by rw [hcv]; exact hv1 v hv
        have hprevreach : Reach sys.vals ((b + 1) - c.value) := by rw [hcv]; exact hreach'
        have hprevflag : (b + 1) - c.value = 0 ∨
            0 ≤ (optCell sys mode ((b + 1) - c.value)).last := by
          rcases Nat.eq_zero_or_pos ((b + 1) - c.value) with hz | hpos
          · exact Or.inl hz
          · right
            exact (ih _ (by omega) hpos (by omega)).mpr hprevreach
        have hpl : (optCell sys mode ((b + 1) - c.value)).last ≠ -3 := by
          rcases hprevflag with hz | hnn
          · rw [hz, optCell_zero]
            decide
          · omega
        have hpb : (optCell sys mode ((b + 1) - c.value)).primary ≤
            (((b + 1) - c.value : ℕ) : ℚ) * W :=
          optCell_primary_bound sys mode W hW hW0 _ hprevflag
        have hsmall : (optCell sys mode ((b + 1) - c.value)).primary + optWeight mode c <
            bigPrimary - optEps := by
          have hwc := hW c hcmem
          have hcast : (((b + 1) - c.value : ℕ) : ℚ) + 1 ≤ ((b + 1 : ℕ) : ℚ) := by
            have hnat : ((b + 1) - c.value) + 1 ≤ b + 1 := by omega
            exact_mod_cast hnat
          have hNc : ((b + 1 : ℕ) : ℚ) ≤ (N : ℚ) := by exact_mod_cast haN
          have hchain : (optCell sys mode ((b + 1) - c.value)).primary + optWeight mode c ≤
              (N : ℚ) * W := by
            calc (optCell sys mode ((b + 1) - c.value)).primary + optWeight mode c
                ≤ (((b + 1) - c.value : ℕ) : ℚ) * W + W := add_le_add hpb hwc
              _ = ((((b + 1) - c.value : ℕ) : ℚ) + 1) * W := by ring
              _ ≤ ((b + 1 : ℕ) : ℚ) * W := mul_le_mul_of_nonneg_right hcast hW0
              _ ≤ (N : ℚ) * W := mul_le_mul_of_nonneg_right hNc hW0
          have heps : optEps ≤ 1 := by norm_num [optEps]
          calc (optCell sys mode ((b + 1) - c.value)).primary + optWeight mode c
              ≤ (N : ℚ) * W := hchain
            _ < bigPrimary - 1 := hbig
            _ ≤ bigPrimary - optEps := by linarith
        have hget : (optTable sys mode b).get? ((b + 1) - c.value) =
            some (optCell sys mode ((b + 1) - c.value)) :=
          optTable_get? sys mode (by omega)
        have hfold : 0 ≤ (idxFold (optStep (optTable sys mode b) (b + 1) mode)
            sys.coins 0 optInit).last :=
          optFold_reaches (optTable sys mode b) (b + 1) mode sys.coins 0
            ⟨c, hcmem, hva', optCell sys mode ((b + 1) - c.value), hget, hpl, hsmall⟩
        rw [optCell_succ, optFinalize_of_nonneg hfold]
        exact hfold

/- ---------------- opt walk and solver characterisation ---------------- -/

theorem optWalk_spec (sys : CoinSystem) (mode : OptimizeMode) (n : ℕ) :
    ∀ (fuel a : ℕ) (counts : List Int), a ≤ n → a ≤ fuel →
      (a = 0 ∨ 0 ≤ (optCell sys mode a).last) → counts.length = sys.coins.length →
      sumValues sys.coins (optWalk sys (optTable sys mode n) fuel a counts) =
        sumValues sys.coins counts + (a : Int) ∧
      (optWalk sys (optTable sys mode n) fuel a counts).length = counts.length := by
  intro fuel
  induction fuel with
  | zero =>
    intro a counts han haf hflag hlen
    have ha0 : a = 0 := by omega
    subst ha0
    exact ⟨by simp [optWalk], rfl⟩
  | succ fuel ih =>
    intro a counts han haf hflag hlen
    match a with
    | 0 => exact ⟨by simp [optWalk], rfl⟩
    | b + 1 =>
      have hnn : 0 ≤ (optCell sys mode (b + 1)).last := by
        rcases hflag with h0 | hnn
        · exact absurd h0 (by omega)
        · exact hnn
      obtain ⟨j, c, hj, h1c, hva, hprevr, hcell⟩ := optCell_sound sys mode b hnn
      have hgetD : (optTable sys mode n).getD (b + 1) optInit = optCell sys mode (b + 1) :=
        optTable_getD sys mode _ han
      have hlast : (optCell sys mode (b + 1)).last = Int.ofNat j := by
        rw [hcell]
        rfl
      have hstep : optWalk sys (optTable sys mode n) (fuel + 1) (b + 1) counts =
          optWalk sys (optTable sys mode n) fuel ((b + 1) - c.value) (bump counts j) := by
        rw [optWalk]
        simp only [hgetD, hlast, hj]
        rfl
      have hjlen : j < counts.length := by
        rw [hlen]
        exact lt_length_of_get? hj
      have hrec := ih ((b + 1) - c.value) (bump counts j) (by omega) (by omega)
        (by rcases hprevr with hz | h2; exact Or.inl hz; exact Or.inr h2)
        (by rw [bump_length]; exact hlen)
      rw [hstep]
      refine ⟨?_, by rw [hrec.2, bump_length]⟩
      rw [hrec.1, bump_sumValues sys.coins counts j c hj hjlen]
      have hcast : (((b + 1) - c.value : ℕ) : Int) = ((b + 1 : ℕ) : Int) - (c.value : Int) := by
        omega
      rw [hcast]
      push_cast
      ring

/-- Success test of the weighted DP on a non-negative amount. -/
theorem dp_make_change_opt_isSome_iff (sys : CoinSystem) (mode : OptimizeMode)
    (hmode : mode ≠ OptimizeMode.OPT_COUNT) (amount : Int) (h0 : 0 ≤ amount) :
    (dp_make_change_opt sys amount mode).isSome ↔
      0 ≤ (optCell sys mode amount.toNat).last := by
  have hnn : ¬ amount < 0 := by omega
  unfold dp_make_change_opt
  simp only [if_neg hmode, if_neg hnn,
    optTable_getD sys mode optInit (le_refl amount.toNat)]
  split
  · next h =>
    constructor
    · intro hfalse
      simp at hfalse
    · intro hge
      omega
  · next h =>
    constructor
    · intro _
      omega
    · intro _
      simp

/-- Output facts of a successful weighted-DP run. -/
theorem dp_make_change_opt_some_spec (sys : CoinSystem) (mode : OptimizeMode)
    (hmode : mode ≠ OptimizeMode.OPT_COUNT) (amount : Int) (o : List Int)
    (ho : dp_make_change_opt sys amount mode = some o) :
    0 ≤ amount ∧ 0 ≤ (optCell sys mode amount.toNat).last ∧
    sumValues sys.coins o = amount ∧ o.length = sys.coins.length := by
  unfold dp_make_change_opt at ho
  rw [if_neg hmode] at ho
  by_cases h0 : amount < 0
  · simp only [if_pos h0] at ho
    cases ho
  · simp only [if_neg h0,
      optTable_getD sys mode optInit (le_refl amount.toNat)] at ho
    by_cases hlt : (optCell sys mode amount.toNat).last < 0
    · rw [if_pos hlt] at ho
      cases ho
    · rw [if_neg hlt] at ho
      have hw := optWalk_spec sys mode amount.toNat amount.toNat amount.toNat
        (List.replicate sys.coins.length 0) le_rfl le_rfl (Or.inr (by omega)) (by simp)
      have ho' : o = optWalk sys (optTable sys mode amount.toNat) amount.toNat
          amount.toNat (List.replicate sys.coins.length 0) :=
        (Option.some_injective _ ho).symm
      subst ho'
      refine ⟨by omega, by omega, ?_, by rw [hw.2]; simp⟩
      rw [hw.1, sumValues_replicate]
      omega

theorem dpBest_lt_iff_reach (sys : CoinSystem) (hv1 : ∀ v ∈ sys.vals, 1 ≤ v) (n : ℕ) :
    (dpCell sys (n + 1) n).best < n + 1 ↔ Reach sys.vals n := by
  constructor
  · intro h
    exact ⟨_, dpBest_canMake sys (n + 1) n h⟩
  · rintro ⟨k, hk⟩
    have hkle : k ≤ n := CanMake.le_amount hv1 hk
    have := dpBest_le_canMake sys (n + 1) hv1 hk
    omega

/-- C10: for a system with positive denomination values and a non-count
objective whose per-denomination weights are bounded by `W` with
`amount * W` clear of the `1e300` sentinel (automatic for C `int` amounts
and physical coin metadata), the weighted DP succeeds on an amount `≥ 1`
exactly when the count DP does: both reach exactly the representable
amounts. -/
theorem c10_success_domains (sys : CoinSystem) (mode : OptimizeMode)
    (hmode : mode ≠ OptimizeMode.OPT_COUNT) (amount : Int) (ha : 1 ≤ amount)
    (hv1 : ∀ v ∈ sys.vals, 1 ≤ v) (W : ℚ)
    (hW : ∀ c ∈ sys.coins, optWeight mode c ≤ W) (hW0 : 0 ≤ W)
    (hbig : ((amount.toNat : ℕ) : ℚ) * W < bigPrimary - 1) :
    ((dp_make_change_opt sys amount mode).isSome ↔ (dp_make_change sys amount).isSome) := by
  have h0 : 0 ≤ amount := by omega
  rw [dp_make_change_opt_isSome_iff sys mode hmode amount h0,
    dp_make_change_isSome_iff sys amount h0,
    optCell_reach_iff sys mode hv1 W hW hW0 amount.toNat hbig amount.toNat (by omega) le_rfl,
    dpBest_lt_iff_reach sys hv1 amount.toNat]

/-- Witness for `c10_success_domains` at `usd`, mass objective,
amount 12, weight bound 6. -/
theorem c10_witness :
    ((dp_make_change_opt usdSystem 12 .OPT_MASS).isSome ↔
      (dp_make_change usdSystem 12).isSome) :=
  c10_success_domains usdSystem .OPT_MASS (by decide) 12 (by decide) (by decide) 6
    (by norm_num [usdSystem, USD_COINS, optWeight]) (by norm_num)
    (by show ((12 : ℕ) : ℚ) * 6 < bigPrimary - 1; norm_num [bigPrimary])

theorem sumValues_map_cast : ∀ (cs : List CoinSpec) (ns : List ℕ),
    sumValues cs (ns.map (fun x : ℕ => (x : Int))) = (natSumValues cs ns : Int) := by
  intro cs
  induction cs with
  | nil =>
    intro ns
    cases ns <;> simp [sumValues, natSumValues]
  | cons c cs ih =>
    intro ns
    match ns with
    | [] => simp [sumValues, natSumValues]
    | n :: ns' =>
      show (c.value : Int) * (n : Int) + sumValues cs (ns'.map _) =
        ((c.value * n + natSumValues cs ns' : ℕ) : Int)
      rw [ih]
      push_cast
      ring

/-- C3: on every catalog system and amount in `0..10000`, each solver
that reports success returns a count vector whose value total is exactly
the requested amount. -/
theorem c3_value_conservation (sys : CoinSystem) (hsys : sys ∈ SYSTEMS) (amount : Int)
    (h0 : 0 ≤ amount) (_h10k : amount ≤ 10000) :
    (∀ g r, greedy_make_change sys amount = (g, r) → r = 0 →
      sumValues sys.coins g = amount) ∧
    (∀ d, dp_make_change sys amount = some d → sumValues sys.coins d = amount) ∧
    (∀ mode o, dp_make_change_opt sys amount mode = some o →
      sumValues sys.coins o = amount) := by
  refine ⟨?_, ?_, ?_⟩
  · intro g r hg hr0
    obtain ⟨m, rfl⟩ : ∃ m : ℕ, amount = (m : Int) := ⟨amount.toNat, by omega⟩
    rw [greedy_make_change, greedyGo_ofNat, Prod.mk.injEq] at hg
    obtain ⟨hgbuf, hgrem⟩ := hg
    subst hr0
    have hrem0 : (greedyNat sys.coins m).2 = 0 := by omega
    have hcons := greedyNat_conserve sys.coins m
    rw [hrem0, Nat.add_zero] at hcons
    rw [← hgbuf, sumValues_map_cast, hcons]
  · intro d hd
    exact (dp_make_change_some_spec sys amount d hd).2.2.2.2.1
  · intro mode o ho
    by_cases hmode : mode = OptimizeMode.OPT_COUNT
    · subst hmode
      have hdel : dp_make_change_opt sys amount OptimizeMode.OPT_COUNT =
          dp_make_change sys amount := by
        unfold dp_make_change_opt
        rw [if_pos rfl]
      rw [hdel] at ho
      exact (dp_make_change_some_spec sys amount o ho).2.2.2.2.1
    · exact (dp_make_change_opt_some_spec sys mode hmode amount o ho).2.2.1

/-- Witness for `c3_value_conservation` at `usd`, amount 137. -/
theorem c3_witness :
    (∀ g r, greedy_make_change usdSystem 137 = (g, r) → r = 0 →
      sumValues usdSystem.coins g = 137) ∧
    (∀ d, dp_make_change usdSystem 137 = some d → sumValues usdSystem.coins d = 137) ∧
    (∀ mode o, dp_make_change_opt usdSystem 137 mode = some o →
      sumValues usdSystem.coins o = 137) :=
  c3_value_conservation usdSystem (by simp [SYSTEMS]) 137 (by decide) (by decide)

/- ---------------- aggregate-metric lemmas ---------------- -/

/-- Shared shape of the three aggregate metrics. -/
def totalAgg (sel wfn : CoinSpec → ℚ) (cs : List CoinSpec) (counts : List Int) : ℚ :=
  let r := aggGo sel wfn (cs.zip counts) (0, false)
  if r.2 then r.1 else -1

theorem total_mass_eq_totalAgg (sys : CoinSystem) (counts : List Int) :
    total_mass sys counts = totalAgg (·.mass_g) (·.mass_g) sys.coins counts := rfl

theorem total_diameter_eq_totalAgg (sys : CoinSystem) (counts : List Int) :
    total_diameter sys counts =
      totalAgg (·.diameter_mm) (·.diameter_mm) sys.coins counts := rfl

theorem total_area_eq_totalAgg (sys : CoinSystem) (counts : List Int) :
    total_area sys counts =
      totalAgg (·.diameter_mm)
        (fun c => mPi * ((1 : ℚ) / 2 * c.diameter_mm) * ((1 : ℚ) / 2 * c.diameter_mm))
        sys.coins counts := rfl

theorem aggGo_spec (sel wfn : CoinSpec → ℚ) :
    ∀ (l : List (CoinSpec × Int)) (s : ℚ) (b : Bool),
      aggGo sel wfn l (s, b) =
        (s + definedSum sel wfn l, b || l.any (fun p => decide (0 < sel p.1))) := by
  intro l
  induction l with
  | nil =>
    intro s b
    simp [aggGo, definedSum]
  | cons p rest ih =>
    intro s b
    by_cases hp : 0 < sel p.1
    · have h1 : aggGo sel wfn (p :: rest) (s, b) =
          aggGo sel wfn rest (s + wfn p.1 * (p.2 : ℚ), true) := by
        simp [aggGo, hp]
      rw [h1, ih]
      unfold definedSum
      rw [List.filter_cons_of_pos (by simpa using hp)]
      simp only [List.map_cons, List.sum_cons, List.any_cons, decide_eq_true hp,
        Bool.true_or, Bool.or_true, Prod.mk.injEq]
      exact ⟨by ring, trivial⟩
    · have h1 : aggGo sel wfn (p :: rest) (s, b) = aggGo sel wfn rest (s, b) := by
        simp [aggGo, hp]
      rw [h1, ih]
      unfold definedSum
      rw [List.filter_cons_of_neg (by simpa using hp)]
      simp only [List.any_cons, decide_eq_false hp, Bool.false_or]

theorem mem_zip_fst : ∀ {cs : List CoinSpec} {xs : List Int},
    xs.length = cs.length → ∀ {c : CoinSpec}, c ∈ cs → ∃ x, (c, x) ∈ cs.zip xs := by
  intro cs
  induction cs with
  | nil =>
    intro xs _ c hc
    cases hc
  | cons c0 rest ih =>
    intro xs hlen c hc
    match xs with
    | x :: xs' =>
      rcases List.mem_cons.mp hc with rfl | hmem
      · exact ⟨x, List.mem_cons_self _ _⟩
      · obtain ⟨y, hy⟩ := ih (by simpa using hlen) hmem
        exact ⟨y, List.mem_cons_of_mem _ hy⟩

theorem definedSum_nonneg (sel wfn : CoinSpec → ℚ)
    (hw : ∀ c, 0 < sel c → 0 ≤ wfn c) (l : List (CoinSpec × Int))
    (hcnt : ∀ p ∈ l, (0 : Int) ≤ p.2) : 0 ≤ definedSum sel wfn l := by
  unfold definedSum
  apply List.sum_nonneg
  intro x hx
  obtain ⟨p, hp, rfl⟩ := List.mem_map.mp hx
  have hmem := List.mem_filter.mp hp
  have hsel : 0 < sel p.1 := of_decide_eq_true hmem.2
  have hcp : (0 : Int) ≤ p.2 := hcnt p hmem.1
  have : (0 : ℚ) ≤ (p.2 : ℚ) := by exact_mod_cast hcp
  exact mul_nonneg (hw p.1 hsel) this

/-- Characterisation of the shared aggregate-metric shape: `-1` iff no
denomination has positive selector metadata, the defined-terms sum
otherwise. -/
theorem totalAgg_spec (sel wfn : CoinSpec → ℚ) (hw : ∀ c, 0 < sel c → 0 ≤ wfn c)
    (cs : List CoinSpec) (counts : List Int) (hlen : counts.length = cs.length)
    (hc : ∀ x ∈ counts, 0 ≤ x) :
    (totalAgg sel wfn cs counts < 0 ↔ ∀ c ∈ cs, ¬ 0 < sel c) ∧
    ((∃ c ∈ cs, 0 < sel c) →
      totalAgg sel wfn cs counts = definedSum sel wfn (cs.zip counts)) ∧
    ((∀ c ∈ cs, ¬ 0 < sel c) → totalAgg sel wfn cs counts = -1) := by
  have hany : (cs.zip counts).any (fun p => decide (0 < sel p.1)) = true ↔
      ∃ c ∈ cs, 0 < sel c := by
    rw [List.any_eq_true]
    constructor
    · rintro ⟨p, hp, hdp⟩
      exact ⟨p.1, (List.of_mem_zip hp).1, of_decide_eq_true hdp⟩
    · rintro ⟨c, hc', hsel⟩
      obtain ⟨x, hx⟩ := mem_zip_fst hlen hc'
      exact ⟨(c, x), hx, decide_eq_true hsel⟩
  have hgo := aggGo_spec sel wfn (cs.zip counts) 0 false
  have hT : totalAgg sel wfn cs counts =
      if (cs.zip counts).any (fun p => decide (0 < sel p.1))
      then definedSum sel wfn (cs.zip counts) else -1 := by
    unfold totalAgg
    rw [hgo]
    simp only [Bool.false_or, zero_add]
  have hcnt : ∀ p ∈ cs.zip counts, (0 : Int) ≤ p.2 := by
    intro p hp
    exact hc p.2 (List.of_mem_zip hp).2
  have hnn := definedSum_nonneg sel wfn hw (cs.zip counts) hcnt
  refine ⟨?_, ?_, ?_⟩
  · constructor
    · intro hneg
      intro c hcmem hsel
      have hex : ∃ c ∈ cs, 0 < sel c := ⟨c, hcmem, hsel⟩
      rw [hT, if_pos (hany.mpr hex)] at hneg
      exact absurd hneg (not_lt.mpr hnn)
    · intro hnone
      have hnoex : ¬ (cs.zip counts).any (fun p => decide (0 < sel p.1)) = true := by
        rw [hany]
        rintro ⟨c, hcmem, hsel⟩
        exact hnone c hcmem hsel
      rw [hT, if_neg hnoex]
      norm_num
  · intro hex
    rw [hT, if_pos (hany.mpr hex)]
  · intro hnone
    have hnoex : ¬ (cs.zip counts).any (fun p => decide (0 < sel p.1)) = true := by
      rw [hany]
      rintro ⟨c, hcmem, hsel⟩
      exact hnone c hcmem hsel
    rw [hT, if_neg hnoex]

theorem definedSum_area_eq (l : List (CoinSpec × Int)) :
    definedSum (·.diameter_mm)
      (fun c => mPi * ((1 : ℚ) / 2 * c.diameter_mm) * ((1 : ℚ) / 2 * c.diameter_mm)) l =
    definedSum (·.diameter_mm) specArea l := by
  unfold definedSum
  congr 1
  apply List.map_congr_left
  intro p _
  show mPi * ((1 : ℚ) / 2 * p.1.diameter_mm) * ((1 : ℚ) / 2 * p.1.diameter_mm) * (p.2 : ℚ) =
    specArea p.1 * (p.2 : ℚ)
  unfold specArea
  ring

/-- C7: each aggregate metric returns the negative Unknown sentinel
(`-1`) iff no denomination in the system has defined (positive) metadata
for that quantity; otherwise it returns the sum of `metadata * count`
over exactly the denominations with defined metadata, with `total_area`
using the per-denomination area `π * (diameter / 2) ^ 2`. -/
theorem c7_metric_sentinels (sys : CoinSystem) (counts : List Int)
    (hlen : counts.length = sys.coins.length) (hc : ∀ x ∈ counts, 0 ≤ x) :
    ((total_mass sys counts < 0 ↔ ∀ c ∈ sys.coins, ¬ 0 < c.mass_g) ∧
      ((∃ c ∈ sys.coins, 0 < c.mass_g) →
        total_mass sys counts = definedSum (·.mass_g) (·.mass_g) (sys.coins.zip counts)) ∧
      ((∀ c ∈ sys.coins, ¬ 0 < c.mass_g) → total_mass sys counts = -1)) ∧
    ((total_diameter sys counts < 0 ↔ ∀ c ∈ sys.coins, ¬ 0 < c.diameter_mm) ∧
      ((∃ c ∈ sys.coins, 0 < c.diameter_mm) →
        total_diameter sys counts =
          definedSum (·.diameter_mm) (·.diameter_mm) (sys.coins.zip counts)) ∧
      ((∀ c ∈ sys.coins, ¬ 0 < c.diameter_mm) → total_diameter sys counts = -1)) ∧
    ((total_area sys counts < 0 ↔ ∀ c ∈ sys.coins, ¬ 0 < c.diameter_mm) ∧
      ((∃ c ∈ sys.coins, 0 < c.diameter_mm) →
        total_area sys counts =
          definedSum (·.diameter_mm) specArea (sys.coins.zip counts)) ∧
      ((∀ c ∈ sys.coins, ¬ 0 < c.diameter_mm) → total_area sys counts = -1)) := by
  have hmass := totalAgg_spec (·.mass_g) (·.mass_g)
    (fun c h => le_of_lt h) sys.coins counts hlen hc
  have hdiam := totalAgg_spec (·.diameter_mm) (·.diameter_mm)
    (fun c h => le_of_lt h) sys.coins counts hlen hc
  have harea := totalAgg_spec (·.diameter_mm)
    (fun c => mPi * ((1 : ℚ) / 2 * c.diameter_mm) * ((1 : ℚ) / 2 * c.diameter_mm))
    (fun c h => by
      have hmpi : (0 : ℚ) < mPi := by norm_num [mPi]
      have hd2 : (0 : ℚ) ≤ (1 : ℚ) / 2 * c.diameter_mm := by linarith
      exact mul_nonneg (mul_nonneg (le_of_lt hmpi) hd2) hd2)
    sys.coins counts hlen hc
  refine ⟨?_, ?_, ?_⟩
  · rw [total_mass_eq_totalAgg]
    exact hmass
  · rw [total_diameter_eq_totalAgg]
    exact hdiam
  · rw [total_area_eq_totalAgg]
    refine ⟨harea.1, ?_, harea.2.2⟩
    intro hex
    rw [harea.2.1 hex, definedSum_area_eq]

/-- Witness for `c7_metric_sentinels` at `usd` with counts `[1, 2, 3, 4]`. -/
theorem c7_witness :
    ((total_mass usdSystem [1, 2, 3, 4] < 0 ↔ ∀ c ∈ usdSystem.coins, ¬ 0 < c.mass_g) ∧
      ((∃ c ∈ usdSystem.coins, 0 < c.mass_g) →
        total_mass usdSystem [1, 2, 3, 4] =
          definedSum (·.mass_g) (·.mass_g) (usdSystem.coins.zip [1, 2, 3, 4])) ∧
      ((∀ c ∈ usdSystem.coins, ¬ 0 < c.mass_g) → total_mass usdSystem [1, 2, 3, 4] = -1)) ∧
    ((total_diameter usdSystem [1, 2, 3, 4] < 0 ↔
        ∀ c ∈ usdSystem.coins, ¬ 0 < c.diameter_mm) ∧
      ((∃ c ∈ usdSystem.coins, 0 < c.diameter_mm) →
        total_diameter usdSystem [1, 2, 3, 4] =
          definedSum (·.diameter_mm) (·.diameter_mm) (usdSystem.coins.zip [1, 2, 3, 4])) ∧
      ((∀ c ∈ usdSystem.coins, ¬ 0 < c.diameter_mm) →
        total_diameter usdSystem [1, 2, 3, 4] = -1)) ∧
    ((total_area usdSystem [1, 2, 3, 4] < 0 ↔
        ∀ c ∈ usdSystem.coins, ¬ 0 < c.diameter_mm) ∧
      ((∃ c ∈ usdSystem.coins, 0 < c.diameter_mm) →
        total_area usdSystem [1, 2, 3, 4] =
          definedSum (·.diameter_mm) specArea (usdSystem.coins.zip [1, 2, 3, 4])) ∧
      ((∀ c ∈ usdSystem.coins, ¬ 0 < c.diameter_mm) →
        total_area usdSystem [1, 2, 3, 4] = -1)) :=
  c7_metric_sentinels usdSystem [1, 2, 3, 4] (by decide) (by decide)

/- ---------------- C8: weight and tie-break refinement ---------------- -/

/-- C8: for non-count objectives, the per-denomination weight the code
computes is exactly the spec's weight (metadata under the objective when
positive, else exactly `1.0`), and a candidate replaces the incumbent
cell iff the spec's improvement rule holds: primary lower by more than
`1e-12`, or primary within `1e-12` and coin count strictly lower.  The
`0 ≤ diameter` hypothesis encodes the data model's convention that
non-positive metadata is "unknown", never a negative quantity. -/
theorem c8_weight_and_rule (mode : OptimizeMode) (_hm : mode ≠ OptimizeMode.OPT_COUNT)
    (c : CoinSpec) (hd : 0 ≤ c.diameter_mm) (t : List OptCell) (a i : ℕ)
    (acc prev : OptCell) (hget : t.get? (a - c.value) = some prev)
    (hva : c.value ≤ a) (hprev : prev.last ≠ -3) :
    optWeight mode c = specWeight mode c ∧
    optStep t a mode c i acc =
      (if SpecBetter (prev.primary + specWeight mode c) (prev.coins + 1)
          acc.primary acc.coins
       then ⟨prev.primary + specWeight mode c, prev.coins + 1, (i : Int)⟩ else acc) := by
  have hmpi : (0 : ℚ) < mPi := by norm_num [mPi]
  have harea_case : (if (if 0 < c.diameter_mm
          then mPi * (1 / 4) * c.diameter_mm * c.diameter_mm else 0) ≤ 0 then (1 : ℚ)
        else if 0 < c.diameter_mm then mPi * (1 / 4) * c.diameter_mm * c.diameter_mm else 0) =
      (if 0 < specArea c then specArea c else 1) := by
    by_cases hm : 0 < c.diameter_mm
    · have harea : (0 : ℚ) < mPi * (1 / 4) * c.diameter_mm * c.diameter_mm := by
        have h4 : (0 : ℚ) < mPi * (1 / 4) := by positivity
        positivity
      have hspec : (0 : ℚ) < specArea c := by
        unfold specArea
        positivity
      simp only [if_pos hm]
      rw [if_neg (not_le.mpr harea), if_pos hspec]
      unfold specArea
      ring
    · have hspec : ¬ (0 : ℚ) < specArea c := by
        have hd0 : c.diameter_mm = 0 := le_antisymm (not_lt.mp hm) hd
        unfold specArea
        rw [hd0]
        norm_num
      simp only [if_neg hm]
      rw [if_pos le_rfl, if_neg hspec]
  have hw : optWeight mode c = specWeight mode c := by
    cases mode with
    | OPT_MASS =>
      show (if c.mass_g ≤ 0 then (1 : ℚ) else c.mass_g) =
        (if 0 < c.mass_g then c.mass_g else 1)
      by_cases hm : 0 < c.mass_g
      · rw [if_pos hm, if_neg (not_le.mpr hm)]
      · rw [if_neg hm, if_pos (not_lt.mp hm)]
    | OPT_DIAMETER =>
      show (if c.diameter_mm ≤ 0 then (1 : ℚ) else c.diameter_mm) =
        (if 0 < c.diameter_mm then c.diameter_mm else 1)
      by_cases hm : 0 < c.diameter_mm
      · rw [if_pos hm, if_neg (not_le.mpr hm)]
      · rw [if_neg hm, if_pos (not_lt.mp hm)]
    | OPT_AREA => exact harea_case
    | OPT_COUNT => exact harea_case
  refine ⟨hw, ?_⟩
  simp only [optStep, if_pos hva, hget, if_neg hprev, hw]
  by_cases hbet : SpecBetter (prev.primary + specWeight mode c) (prev.coins + 1)
      acc.primary acc.coins
  · rw [if_pos hbet]
    exact if_pos hbet
  · rw [if_neg hbet]
    exact if_neg hbet

/-- Witness for `c8_weight_and_rule`: mass objective, the `usd` quarter,
cell 25 with its unit table prefix, against the initial incumbent. -/
theorem c8_witness :
    optWeight .OPT_MASS ⟨25, "25c", "quarter", 5.670, 24.26, "8.33% Ni bal Cu (clad)"⟩ =
      specWeight .OPT_MASS ⟨25, "25c", "quarter", 5.670, 24.26, "8.33% Ni bal Cu (clad)"⟩ ∧
    optStep [optBase] 25 .OPT_MASS
        ⟨25, "25c", "quarter", 5.670, 24.26, "8.33% Ni bal Cu (clad)"⟩ 0 optInit =
      (if SpecBetter (optBase.primary +
            specWeight .OPT_MASS ⟨25, "25c", "quarter", 5.670, 24.26, "8.33% Ni bal Cu (clad)"⟩)
          (optBase.coins + 1) optInit.primary optInit.coins
       then ⟨optBase.primary +
            specWeight .OPT_MASS ⟨25, "25c", "quarter", 5.670, 24.26, "8.33% Ni bal Cu (clad)"⟩,
          optBase.coins + 1, ((0 : ℕ) : Int)⟩ else optInit) :=
  c8_weight_and_rule .OPT_MASS (by decide)
    ⟨25, "25c", "quarter", 5.670, 24.26, "8.33% Ni bal Cu (clad)"⟩ (by norm_num)
    [optBase] 25 0 optInit optBase (by rfl) (by decide) (by decide)

/-- C4: the claim says every solver entry point succeeds on `amount = 0`
with the all-zero count vector.  Greedy, the count DP and the count-mode
multi-objective DP do; but `dp_make_change_opt` under each non-count
objective fails (the base cell keeps the sentinel `last = -2` and the
success check `dp[amount].last < 0` misreads it as unreachable), returning
`-1` (here `none`) instead of the all-zero vector — the code bug run at
the failing input. -/
theorem c4_zero_case_eval :
    greedy_make_change usdSystem 0 = ([0, 0, 0, 0], 0) ∧
    dp_make_change usdSystem 0 = some [0, 0, 0, 0] ∧
    dp_make_change_opt usdSystem 0 .OPT_COUNT = some [0, 0, 0, 0] ∧
    dp_make_change_opt usdSystem 0 .OPT_MASS = none ∧
    dp_make_change_opt usdSystem 0 .OPT_DIAMETER = none ∧
    dp_make_change_opt usdSystem 0 .OPT_AREA = none := by
  refine ⟨by decide, by decide, by decide, by decide, by decide, by decide⟩

/-- C5 counterexample: the claim says every solver rejects `amount = -1`
before any computation and never returns success; but C
`greedy_make_change` has no negative-amount guard, and on `usd` it runs
the division loop to a zero remainder, returning `0` (success) with the
buffer written to `[0, 0, 0, -1]`. -/
theorem c5_counterexample :
    greedy_make_change usdSystem (-1) = ([0, 0, 0, -1], 0) := by decide

/-- C5 amended: `dp_make_change` (and `dp_make_change_opt` in count mode,
which delegates to it) rejects every negative amount before any
computation; `greedy_make_change` performs no validation and can return
success on a negative amount. -/
theorem c5_amended_negative_rejection (sys : CoinSystem) (amount : Int)
    (h : amount < 0) :
    dp_make_change sys amount = none ∧
    dp_make_change_opt sys amount .OPT_COUNT = none := by
  constructor
  · simp [dp_make_change, h]
  · simp [dp_make_change_opt, dp_make_change, h]

/-- Witness for `c5_amended_negative_rejection` at `usd`, `amount = -1`. -/
theorem c5_witness :
    dp_make_change usdSystem (-1) = none ∧
    dp_make_change_opt usdSystem (-1) .OPT_COUNT = none :=
  c5_amended_negative_rejection usdSystem (-1) (by decide)

/-- C6 counterexample: the claim says every catalog system has a
denomination whose value equals the system's smallest unit, making every
non-negative amount representable; the `aud` system (smallest unit 1,
denominations 200/100/50/20/10/5) has no such denomination, and amount 1
is not representable (the DP fails on it). -/
theorem c6_counterexample :
    audSystem ∈ SYSTEMS ∧
    (∀ c ∈ audSystem.coins, c.value ≠ audSystem.smallest_unit) ∧
    dp_make_change audSystem 1 = none := by
  refine ⟨by simp [SYSTEMS], by decide, by decide⟩

/-- C6 amended: every catalog system is strictly descending by value with
no duplicate values, and `usd`, `eur`, `cad` contain a denomination equal
to the smallest unit; `aud`, `nzd` and `cny` do not (so not every
non-negative amount is representable in them). -/
theorem c6_amended_catalog_invariant :
    (∀ sys ∈ SYSTEMS, sys.vals.Pairwise (· > ·)) ∧
    (∀ sys ∈ [usdSystem, eurSystem, cadSystem],
      ∃ c ∈ sys.coins, c.value = sys.smallest_unit) ∧
    (∀ sys ∈ [audSystem, nzdSystem, cnySystem],
      ∀ c ∈ sys.coins, c.value ≠ sys.smallest_unit) := by
  refine ⟨by decide, by decide, by decide⟩

/-- C9 counterexample: the claim says every solver leaves the output
buffer untouched on failure; but C `greedy_make_change` writes the whole
buffer before deciding success: on `cny` with amount 5 it fails (remainder
5) yet the caller's buffer `[7, 7, 7]` has been overwritten with
`[0, 0, 0]`. -/
theorem c9_counterexample :
    greedyWithBuffer cnySystem 5 [7, 7, 7] = (-1, [0, 0, 0]) := by decide

/-- C9 amended: `dp_make_change` and `dp_make_change_opt` leave the
caller's buffer untouched on failure; `greedy_make_change` always writes
every entry of the buffer (its final contents never depend on the prior
contents), succeeding or not. -/
theorem c9_amended_frame (sys : CoinSystem) (amount : Int) (mode : OptimizeMode)
    (buf : List Int)
    (h1 : dp_make_change sys amount = none)
    (h2 : dp_make_change_opt sys amount mode = none) :
    dpWithBuffer sys amount buf = (-1, buf) ∧
    optWithBuffer sys amount mode buf = (-1, buf) ∧
    (greedyWithBuffer sys amount buf).2 = (greedyGo sys.coins amount).1 := by
  refine ⟨?_, ?_, rfl⟩
  · simp [dpWithBuffer, h1]
  · simp [optWithBuffer, h2]

/-- Witness for `c9_amended_frame` at `cny`, amount 5, mass mode,
buffer `[7, 7, 7]` (both DP solvers fail there). -/
theorem c9_witness :
    dpWithBuffer cnySystem 5 [7, 7, 7] = (-1, [7, 7, 7]) ∧
    optWithBuffer cnySystem 5 .OPT_MASS [7, 7, 7] = (-1, [7, 7, 7]) ∧
    (greedyWithBuffer cnySystem 5 [7, 7, 7]).2 = (greedyGo cnySystem.coins 5).1 :=
  c9_amended_frame cnySystem 5 .OPT_MASS [7, 7, 7] (by decide) (by decide)

end CoinSorter
